import Mathlib

/-!
Shallow embedding of the rela scripting-language runtime (rela.c) and
verification of its specification claims.

Modelling conventions:
* `item_t` (the 16-byte tagged union) becomes the inductive `Val`.
  Heap references (vectors, maps) are modelled structurally; coroutine,
  callback and userdata references are heap indices (`Nat`).
* C doubles are modelled as exact rationals; `DBL_EPSILON` is `2 ^ (-52)`.
  Conversions `double -> int64_t` truncate toward zero (`truncQ`).
* The `meta` operator-dispatch fields of vectors/maps/userdata are absent
  from the model: modelled values carry no meta, so in `equal`/`less`/`add`
  etc. the `meta_get` branches decline and the built-in behaviour applies,
  exactly as in the source for meta-free values.
* Interned strings compare by pointer in C; under the interning invariant
  (verified separately on the interner model) pointer equality coincides
  with byte equality, so `Val.str` carries the bytes and compares
  structurally.
-/

namespace Rela

/-- DBL_EPSILON for IEEE-754 doubles, `2 ^ (-52)`, as an exact rational. -/
def dblEps : ℚ := 1 / 2 ^ 52

/-- The `type` tags of `item_t` (`enum { NIL=0, INTEGER, FLOAT, STRING,
BOOLEAN, VECTOR, MAP, SUBROUTINE, COROUTINE, CALLBACK, USERDATA, NODE }`). -/
inductive VType : Type where
  | nil | integer | float | string | boolean | vector | map
  | subroutine | coroutine | callback | userdata | node
  deriving DecidableEq

/-- The tagged value union `item_t`.  Vectors and maps are carried
structurally (a map is its parallel `keys`/`vals` vectors); subroutines
carry their bytecode entry point; coroutines, callbacks and userdata carry
a heap reference index. -/
inductive Val : Type where
  | nil
  | int (i : Int)
  | float (f : ℚ)
  | str (s : String)
  | bool (b : Bool)
  | vec (items : List Val)
  | map (keys vals : List Val)
  | sub (entry : Nat)
  | cor (ref : Nat)
  | cb (ref : Nat)
  | data (ref : Nat)
  | node (ref : Nat)

/-- Tag of a value (`item.type`). -/
def ty : Val → VType
  | .nil => .nil
  | .int _ => .integer
  | .float _ => .float
  | .str _ => .string
  | .bool _ => .boolean
  | .vec _ => .vector
  | .map _ _ => .map
  | .sub _ => .subroutine
  | .cor _ => .coroutine
  | .cb _ => .callback
  | .data _ => .userdata
  | .node _ => .node

/-- C `truth` (rela.c): coercion of a value to a boolean.  The float case
is `a.fnum > 0+DBL_EPSILON || a.fnum < 0-DBL_EPSILON`; the string case is
`a.str && a.str[0]` (modelled strings are never the null pointer); every
type without an explicit branch falls through to `false` (only NIL). -/
def truth : Val → Bool
  | .int a => a != 0
  | .float a => decide (dblEps < a) || decide (a < -dblEps)
  | .str s => !s.isEmpty
  | .bool b => b
  | .vec items => decide (0 < items.length)
  | .map keys _ => decide (0 < keys.length)
  | .sub _ => true
  | .cor _ => true
  | .cb _ => true
  | .data _ => true
  | .node _ => true
  | .nil => false

mutual
/-- C `equal` (rela.c).  Branches in source order; notable details kept
from the source: floats are equal when within `10 * DBL_EPSILON`; strings
compare by interned pointer (byte equality in the model); the vector and
map pointer-identity shortcuts are subsumed by structural comparison; the
CALLBACK type has no branch, so two callbacks are never `equal`; `NIL`
equals `NIL`.  Meta `==` dispatch is absent (meta-free model). -/
def equal : Val → Val → Bool
  | .int a, .int b => a == b
  | .float a, .float b => decide (|a - b| < 10 * dblEps)
  | .str a, .str b => a == b
  | .bool a, .bool b => a == b
  | .vec a, .vec b => equalList a b
  | .map ka va, .map kb vb => equalList ka kb && equalList va vb
  | .sub a, .sub b => a == b
  | .cor a, .cor b => a == b
  | .data a, .data b => a == b
  | .node a, .node b => a == b
  | .nil, .nil => true
  | _, _ => false

/-- Element-wise list comparison: C compares sizes then elements; both are
folded here (`equalList` is `true` exactly on equal-length pointwise-equal
lists). -/
def equalList : List Val → List Val → Bool
  | [], [] => true
  | a :: as, b :: bs => equal a b && equalList as bs
  | _, _ => false
end

/-- C `less` (rela.c): the comparison used by `vec_lower_bound` (map key
ordering), `vec_sort` and the `<` `<=` `>` `>=` opcodes.  Every branch is
guarded by `a.type == b.type`; any cross-type pair falls through to
`false`.  Same-type: integers and floats by numeric value, strings by
pointer inequality plus `strcmp` (byte order), vectors and maps by size.
Meta `<` dispatch is absent (meta-free model). -/
def less : Val → Val → Bool
  | .int a, .int b => decide (a < b)
  | .float a, .float b => decide (a < b)
  | .str a, .str b => a != b && decide (a < b)
  | .vec a, .vec b => decide (a.length < b.length)
  | .map ka _, .map kb _ => decide (ka.length < kb.length)
  | _, _ => false

/-- C conversion of a `double` arithmetic result to `int64_t`: truncation
toward zero. -/
def truncQ (q : ℚ) : Int := if 0 ≤ q then ⌊q⌋ else ⌈q⌉

/-- C `add` (rela.c).  The four numeric branches in source order: the
result type follows the LEFT operand, and `int + float` stores the mixed
`double` sum back into the `int64_t` member (truncation).  Non-numeric
operands without meta dispatch produce nil. -/
def add : Val → Val → Val
  | .int a, .int b => .int (a + b)
  | .int a, .float b => .int (truncQ ((a : ℚ) + b))
  | .float a, .int b => .float (a + (b : ℚ))
  | .float a, .float b => .float (a + b)
  | _, _ => .nil

/-- C `multiply` (rela.c), same shape as `add`. -/
def multiply : Val → Val → Val
  | .int a, .int b => .int (a * b)
  | .int a, .float b => .int (truncQ ((a : ℚ) * b))
  | .float a, .int b => .float (a * (b : ℚ))
  | .float a, .float b => .float (a * b)
  | _, _ => .nil

/-- C `divide` (rela.c), same shape as `add`; `int / int` is C `int64_t`
division (truncated); division by zero is undefined in C and the
rational-model artefacts at zero divisors are fenced off by hypotheses in
the theorems below. -/
def divide : Val → Val → Val
  | .int a, .int b => .int (Int.tdiv a b)
  | .int a, .float b => .int (truncQ ((a : ℚ) / b))
  | .float a, .int b => .float (a / (b : ℚ))
  | .float a, .float b => .float (a / b)
  | _, _ => .nil

/-! Ordered vector-backed map (`map_t`): parallel `keys`/`vals` vectors,
`vec_lower_bound` search (linear scan below 16 elements, binary above),
`map_get` / `map_set` / `map_clr`. -/

/-- Linear branch of C `vec_lower_bound`:
`while (i < size && less(items[i], key)) i++`. -/
def vecLowerBoundLin (xs : List Val) (key : Val) : Nat :=
  match xs with
  | [] => 0
  | x :: rest => if less x key then vecLowerBoundLin rest key + 1 else 0

/-- Binary branch of C `vec_lower_bound`: the `lower <= upper` loop with
midpoint `(lower+upper)/2`, returning the midpoint on an `equal` hit and
the final `lower` otherwise.  `upper` is an `int` in C and may reach
`-1`. -/
def vecLowerBoundBin (xs : List Val) (key : Val) (lower : Nat) (upper : Int) : Nat :=
  if h : (lower : Int) ≤ upper then
    if equal (xs.getD ((lower + upper.toNat) / 2) .nil) key then (lower + upper.toNat) / 2
    else if less (xs.getD ((lower + upper.toNat) / 2) .nil) key then
      vecLowerBoundBin xs key ((lower + upper.toNat) / 2 + 1) upper
    else
      vecLowerBoundBin xs key lower (((lower + upper.toNat) / 2 : Nat) - 1)
  else lower
termination_by (upper + 1 - lower).toNat
decreasing_by
  · simp_wf; omega
  · simp_wf; omega

/-- C `vec_lower_bound`: empty vector gives 0; below 16 elements a linear
scan; otherwise binary search over `[0, size-1]`. -/
def vec_lower_bound (xs : List Val) (key : Val) : Nat :=
  if xs.length = 0 then 0
  else if xs.length < 16 then vecLowerBoundLin xs key
  else vecLowerBoundBin xs key 0 ((xs.length : Int) - 1)

/-- C `map_t`: two parallel vectors. -/
structure MapV : Type where
  keys : List Val
  vals : List Val

/-- C `map_lower_bound`. -/
def map_lower_bound (m : MapV) (key : Val) : Nat := vec_lower_bound m.keys key

/-- The found-test of C `map_ref`: lower-bound index in range and `equal`
to the key; returns the index of the binding. -/
def map_ref_idx (m : MapV) (key : Val) : Option Nat :=
  if map_lower_bound m key < m.keys.length ∧
      equal (m.keys.getD (map_lower_bound m key) .nil) key = true
  then some (map_lower_bound m key) else none

/-- C `map_get` / dereferenced `map_ref`: value at the found index. -/
def map_get (m : MapV) (key : Val) : Option Val :=
  match map_ref_idx m key with
  | some i => some (m.vals.getD i .nil)
  | none => none

/-- C `map_clr`: when the lower-bound index holds an `equal` key, delete
key and value in parallel (`vec_del` both vectors at `i`). -/
def map_clr (m : MapV) (key : Val) : MapV :=
  if map_lower_bound m key < m.keys.length ∧
      equal (m.keys.getD (map_lower_bound m key) .nil) key = true then
    ⟨m.keys.eraseIdx (map_lower_bound m key), m.vals.eraseIdx (map_lower_bound m key)⟩
  else m

/-- C `map_set`: a nil value delegates to `map_clr`; otherwise overwrite
the value at an `equal` key, or insert key and value in parallel at the
lower-bound index (`vec_ins` both vectors at `i`). -/
def map_set (m : MapV) (key val : Val) : MapV :=
  if ty val = VType.nil then map_clr m key
  else
    if map_lower_bound m key < m.keys.length ∧
        equal (m.keys.getD (map_lower_bound m key) .nil) key = true then
      ⟨m.keys, m.vals.set (map_lower_bound m key) val⟩
    else
      ⟨m.keys.insertIdx (map_lower_bound m key) key,
        m.vals.insertIdx (map_lower_bound m key) val⟩

/-- One map mutation, as in claim C3's "sequence of map_set and map_clr
operations". -/
inductive MOp : Type where
  | set (key val : Val)
  | clr (key : Val)

/-- Apply one mutation. -/
def applyMOp (m : MapV) : MOp → MapV
  | .set k v => map_set m k v
  | .clr k => map_clr m k

/-- Apply a sequence of mutations, left to right. -/
def applyMOps (ops : List MOp) (m : MapV) : MapV := ops.foldl applyMOp m

/-- The empty map. -/
def mapEmpty : MapV := ⟨[], []⟩

/-- Strict sortedness of a key vector under the runtime order `less`. -/
def sortedKeys (xs : List Val) : Prop :=
  List.Pairwise (fun a b => less a b = true) xs

/-- A mutation all of whose keys are integers. -/
def MOp.intKeyed : MOp → Prop
  | .set k _ => ty k = VType.integer
  | .clr k => ty k = VType.integer

instance (xs : List Val) : Decidable (sortedKeys xs) := by
  unfold sortedKeys; infer_instance

instance (op : MOp) : Decidable op.intKeyed := by
  cases op <;> (unfold MOp.intKeyed; infer_instance)

/-- A mixed-type key sequence on which claim C3 fails: because `less`
relates no cross-type pair, the lower-bound search inserts the second
`.int 5` in front of the `.str "a"` barrier instead of finding the
existing binding. -/
def cexOps : List MOp :=
  [.set (.int 3) (.int 1), .set (.int 5) (.int 1),
   .set (.str "a") (.int 1), .set (.int 5) (.int 2)]

/-! Interpreter state: coroutine (`cor_t`), frame (`frame_t`), the operand
and mark stacks, and the opcode handlers the claims are about.  C arrays
`cells[0 .. depth-1]` are lists indexed from the front; the top of a stack
is the last element. -/

/-- Coroutine states (`COR_SUSPENDED`, `COR_RUNNING`, `COR_DEAD`). -/
inductive CorState : Type where
  | suspended | running | dead
  deriving DecidableEq

/-- C `frame_t`: saved loop/mark depths and instruction pointer, local
bindings (interned-name keys), the scope path of compile-time function
identifiers, and the saved pending-map value. -/
structure Frame : Type where
  loops : Nat
  marks : Nat
  ip : Nat
  locals : List (String × Val)
  path : List Int
  fmap : Val

/-- C `cor_t`: operand stack, auxiliary "other" stack, mark stack, loop
stack, frame stack, pending map value, instruction pointer and state. -/
structure Cor : Type where
  stack : List Val
  other : List Val
  marks : List Nat
  loops : List Int
  frames : List Frame
  cmap : Val
  ip : Nat
  state : CorState

/-- C `depth()`: operand-stack depth above the current top mark (0 when
the mark stack is empty).  An `int` in C, hence `Int` here. -/
def depthV (c : Cor) : Int := (c.stack.length : Int) - (c.marks.getLastD 0 : Int)

/-- C `item(vm, i)` for `i >= 0`: the cell at offset `i` above the current
subframe base. -/
def itemV (c : Cor) (i : Nat) : Val := c.stack.getD (c.marks.getLastD 0 + i) .nil

/-- C `push`. -/
def pushV (c : Cor) (v : Val) : Cor := { c with stack := c.stack ++ [v] }

/-- C `pop` (asserts a non-empty stack). -/
def popV (c : Cor) : Option (Val × Cor) :=
  match c.stack.getLast? with
  | some v => some (v, { c with stack := c.stack.dropLast })
  | none => none

/-- C `op_mark`: push the current operand-stack depth onto the mark
stack. -/
def opMark (c : Cor) : Cor := { c with marks := c.marks ++ [c.stack.length] }

/-- C `limit(vm, count)`: pop one mark (asserting the mark stack
non-empty); for `count >= 0` force the operand stack to exactly
`mark + count` cells, truncating from the top or pushing nils; a negative
`count` leaves the values untouched. -/
def limit (c : Cor) (count : Int) : Option Cor :=
  match c.marks.getLast? with
  | none => none
  | some m =>
    if 0 ≤ count then
      if ((m : Int) + count) < ((c.stack.length : Int)) then
        some { c with marks := c.marks.dropLast,
                      stack := c.stack.take ((m : Int) + count).toNat }
      else
        some { c with marks := c.marks.dropLast,
                      stack := c.stack ++
                        List.replicate (((m : Int) + count).toNat - c.stack.length) .nil }
    else
      some { c with marks := c.marks.dropLast }

/-- C `op_clean`: drop the current subframe
(`stack.depth -= depth(vm)`). -/
def opClean (c : Cor) : Cor := { c with stack := c.stack.take (c.marks.getLastD 0) }

/-- C `arrive(vm, ip)`: push a frame saving the loop depth, mark depth and
instruction pointer, with empty locals and scope path, stashing the
pending map; then jump to the callee entry. -/
def arrive (c : Cor) (ip : Nat) : Cor :=
  { c with
    frames := c.frames ++ [⟨c.loops.length, c.marks.length, c.ip, [], [], c.cmap⟩],
    cmap := .nil,
    ip := ip }

/-- C `call(vm, item)` for a SUBROUTINE callee: read the argument count
from the current subframe depth, `arrive` at the entry, push a mark, then
shift that mark down by the argument count so the callee's subframe starts
at its first argument.  The CALLBACK branch runs host code outside the
model, and any other callee type is the fatal "invalid function" error:
both are `none` here. -/
def call (c : Cor) (f : Val) : Option Cor :=
  match f with
  | .sub entry =>
    let c2 := opMark (arrive c entry)
    some { c2 with marks := c2.marks.dropLast ++
      [((c2.stack.length : Int) - depthV c).toNat] }
  | _ => none

/-- The straight-line opcode subset used to state the MARK/LIMIT envelope
contract of claim C1. -/
inductive Op : Type where
  | mark
  | limitOp (n : Int)
  | lit (v : Val)
  | drop
  | copy
  | clean

/-- One dispatch step of the subset (`op_mark`, `op_limit`, `op_lit`,
`op_drop`, `op_copy`, `op_clean`); `none` models a C assertion failure
(stack or mark underflow). -/
def step (c : Cor) : Op → Option Cor
  | .mark => some (opMark c)
  | .limitOp n => limit c n
  | .lit v => some (pushV c v)
  | .drop => (popV c).map Prod.snd
  | .copy =>
    match c.stack.getLast? with
    | some v => some (pushV c v)
    | none => none
  | .clean => some (opClean c)

/-- Execute an opcode sequence. -/
def exec (c : Cor) : List Op → Option Cor
  | [] => some c
  | op :: ops => (step c op).bind (fun c1 => exec c1 ops)

/-! Name resolution (`local`, `uplocal`, `find`, `op_find`).  Local keys
are interned `char*` in C, compared by pointer; under the interning
invariant this is byte equality, so keys are `String`s compared
structurally. -/

/-- Scan of a frame's `locals.keys[0..depth-1]`, first match wins. -/
def lookupLocals (locals : List (String × Val)) (key : String) : Option Val :=
  match locals with
  | [] => none
  | (k, v) :: rest => if k = key then some v else lookupLocals rest key

/-- C `local(vm, key)`: the current (top) frame's locals, or nothing when
the frame stack is empty. -/
def localFn (c : Cor) (key : String) : Option Val :=
  match c.frames.getLast? with
  | none => none
  | some f => lookupLocals f.locals key

/-- Walk of `uplocal`'s `while` loop over the older frames, from the
frame below the top down to frame 0: a frame is searched only when its
own function identifier (`path.cells[0]`) occurs in the current frame's
scope path at positions `1..` (position 0 — the current function itself —
is skipped, so outer recursive calls of the same function are not
captured); a searched frame that lacks the name does not stop the
walk. -/
def uplocalGo (key : String) (pidsTail : List Int) (older : List Frame) : Option Val :=
  match older with
  | [] => none
  | f :: rest =>
    if f.path.headD 0 ∈ pidsTail then
      match lookupLocals f.locals key with
      | some v => some v
      | none => uplocalGo key pidsTail rest
    else uplocalGo key pidsTail rest

/-- C `uplocal(vm, key)`: nothing with fewer than two frames or a scope
path of length at most one; otherwise the walk above. -/
def uplocalFn (c : Cor) (key : String) : Option Val :=
  if c.frames.length < 2 then none
  else
    match c.frames.getLast? with
    | none => none
    | some lframe =>
      if lframe.path.length ≤ 1 then none
      else uplocalGo key (lframe.path.drop 1) c.frames.dropLast.reverse

/-- The global and core scopes (`vm->scope_global`, `vm->scope_core`),
both ordered maps keyed by interned name strings. -/
structure Scopes : Type where
  scope_global : MapV
  scope_core : MapV

/-- C `find(vm, key)`: current locals, then lexical-ancestor locals, then
the global scope, then the core scope. -/
def find (sc : Scopes) (c : Cor) (key : String) : Option Val :=
  match localFn c key with
  | some v => some v
  | none =>
    match uplocalFn c key with
    | some v => some v
    | none =>
      match map_get sc.scope_global (.str key) with
      | some v => some v
      | none => map_get sc.scope_core (.str key)

/-- C `op_find`: pop the name, resolve it, push the binding; a failed
resolution is the fatal "unknown name" error.  The C asserts that the
popped value is a string and that the stack is non-empty; those assertion
failures are distinct errors here. -/
def op_find (sc : Scopes) (c : Cor) : Except String Cor :=
  match popV c with
  | none => .error "stack underflow"
  | some (key, c1) =>
    match key with
    | .str s =>
      match find sc c1 s with
      | some v => .ok (pushV c1 v)
      | none => .error "unknown name"
    | _ => .error "find: non-string key"

/-! Coroutine chain and `op_resume`.  The VM holds a heap of coroutines
(`Val.cor` carries a heap index), the `routines` chain of heap indices,
and the current routine `vm->routine` as a heap index. -/

/-- The parts of `rela_vm` that `op_resume` touches. -/
structure VM : Type where
  cors : List Cor
  routines : List Nat
  current : Nat

/-- C `op_resume`: `ensure` a coroutine value at `item(0)` of a non-empty
subframe.  A DEAD target: remove the whole subframe (coroutine value and
arguments) from the caller's stack and push the single value nil.
Otherwise mark the target RUNNING, push it on the chain, make it current,
copy the argument values (`item(1)` up) onto its stack, and remove the
subframe from the caller.  (The model reads the caller's cells before the
transfer, as the C does; resuming the currently running coroutine itself
aliases in C and is not modelled.) -/
def op_resume (vm : VM) : Option VM :=
  match vm.cors[vm.current]? with
  | none => none
  | some caller =>
    if 0 < depthV caller then
      match itemV caller 0 with
      | .cor ref =>
        match vm.cors[ref]? with
        | none => none
        | some cor =>
          if cor.state = .dead then
            some { vm with cors :=
              (vm.cors.set vm.current
                (pushV { caller with stack :=
                  (caller.stack.take
                    (caller.stack.length - (depthV caller).toNat)) } .nil)) }
          else
            some { vm with
              cors :=
                ((vm.cors.set vm.current
                  { caller with stack :=
                    (caller.stack.take
                      (caller.stack.length - (depthV caller).toNat)) }).set ref
                  { cor with
                    state := .running,
                    stack :=
                      (cor.stack ++ caller.stack.drop
                        (caller.stack.length - (depthV caller).toNat + 1)) }),
              routines := vm.routines ++ [ref],
              current := ref }
      | _ => none
    else none

/-! String interning (`str_lower_bound`, `strintern`).  A C `char*` is a
heap index; `heap` is the arena of allocated string bodies; `stringsA` is
the young region, `stringsB` the old region, each a sorted array of
stored pointers. -/

/-- The interner state. -/
structure InternState : Type where
  heap : List String
  stringsA : List Nat
  stringsB : List Nat

/-- The bytes behind a pointer. -/
def content (st : InternState) (p : Nat) : String := st.heap.getD p ""

/-- The contents of a region's cells, in order. -/
def regionCells (st : InternState) (r : List Nat) : List String :=
  r.map (fun p => content st p)

/-- C `strcmp` outcome sign on the modelled byte order. -/
def strcmpM (a b : String) : Int := if a < b then -1 else if a = b then 0 else 1

/-- Binary-search loop of C `str_lower_bound`: midpoint comparison,
breaking on an exact match; the C `index` variable (re-assigned to `lower`
at the end of each iteration) is threaded explicitly and is the result
when the loop exhausts. -/
def strLBGo (cells : List String) (s : String) (lower : Nat) (upper : Int)
    (index : Nat) : Nat :=
  if h : (lower : Int) ≤ upper then
    if strcmpM (cells.getD ((lower + upper.toNat) / 2) "") s = 0 then
      (lower + upper.toNat) / 2
    else if strcmpM (cells.getD ((lower + upper.toNat) / 2) "") s < 0 then
      strLBGo cells s ((lower + upper.toNat) / 2 + 1) upper
        ((lower + upper.toNat) / 2 + 1)
    else
      strLBGo cells s lower (((lower + upper.toNat) / 2 : Nat) - 1) lower
  else index
termination_by (upper + 1 - lower).toNat
decreasing_by
  · simp_wf; omega
  · simp_wf; omega

/-- C `str_lower_bound` over a region's cell contents: 0 on an empty
region, otherwise the loop over `[0, depth-1]` starting with `index =
0`. -/
def str_lower_bound (cells : List String) (s : String) : Nat :=
  if cells.length = 0 then 0
  else strLBGo cells s 0 ((cells.length : Int) - 1) 0

/-- C `strintern(vm, str)`: search the old region `stringsB`, then the
young region `stringsA`; each search first compares the stored cell
pointer with `str` itself (returning `str` unchanged when already
interned) and then the bytes (returning the stored copy); when both
regions miss, copy the bytes into a fresh cell (`calloc`+`memmove`,
modelled as appending to the heap) and insert the new pointer into the
young region at the lower-bound index. -/
def strintern (st : InternState) (p : Nat) : InternState × Nat :=
  if str_lower_bound (regionCells st st.stringsB) (content st p) < st.stringsB.length ∧
      st.stringsB.getD (str_lower_bound (regionCells st st.stringsB) (content st p)) 0 = p
  then (st, p)
  else if str_lower_bound (regionCells st st.stringsB) (content st p) < st.stringsB.length ∧
      content st (st.stringsB.getD
        (str_lower_bound (regionCells st st.stringsB) (content st p)) 0) = content st p
  then (st, st.stringsB.getD (str_lower_bound (regionCells st st.stringsB) (content st p)) 0)
  else if str_lower_bound (regionCells st st.stringsA) (content st p) < st.stringsA.length ∧
      st.stringsA.getD (str_lower_bound (regionCells st st.stringsA) (content st p)) 0 = p
  then (st, p)
  else if str_lower_bound (regionCells st st.stringsA) (content st p) < st.stringsA.length ∧
      content st (st.stringsA.getD
        (str_lower_bound (regionCells st st.stringsA) (content st p)) 0) = content st p
  then (st, st.stringsA.getD (str_lower_bound (regionCells st st.stringsA) (content st p)) 0)
  else
    (⟨st.heap ++ [content st p],
      st.stringsA.insertIdx (str_lower_bound (regionCells st st.stringsA) (content st p))
        st.heap.length,
      st.stringsB⟩, st.heap.length)

/-- Well-formedness of the interner: region pointers are allocated, each
region is strictly sorted by content (hence contents are unique within a
region), and the two regions share no content. -/
structure WFIntern (st : InternState) : Prop where
  validA : ∀ p ∈ st.stringsA, p < st.heap.length
  validB : ∀ p ∈ st.stringsB, p < st.heap.length
  sortedA : List.Pairwise (fun p q => content st p < content st q) st.stringsA
  sortedB : List.Pairwise (fun p q => content st p < content st q) st.stringsB
  disj : ∀ p ∈ st.stringsB, ∀ q ∈ st.stringsA, content st p ≠ content st q

/-- Claim C9: truth coercion: nil and false are falsy; an integer is
truthy iff nonzero; a float is truthy iff its absolute value exceeds
DBL_EPSILON; a string is truthy iff non-empty; a vector or map is truthy
iff non-empty; subroutines, coroutines, callbacks and userdata are always
truthy. -/
theorem truth_coercion_spec :
    truth .nil = false ∧
    truth (.bool false) = false ∧
    truth (.bool true) = true ∧
    (∀ i : Int, truth (.int i) = true ↔ i ≠ 0) ∧
    (∀ q : ℚ, truth (.float q) = true ↔ dblEps < |q|) ∧
    (∀ s : String, truth (.str s) = true ↔ s ≠ "") ∧
    (∀ xs : List Val, truth (.vec xs) = true ↔ xs ≠ []) ∧
    (∀ ks vs : List Val, truth (.map ks vs) = true ↔ ks ≠ []) ∧
    (∀ n : Nat, truth (.sub n) = true ∧ truth (.cor n) = true ∧
      truth (.cb n) = true ∧ truth (.data n) = true) := by
  refine ⟨rfl, rfl, rfl, ?_, ?_, ?_, ?_, ?_, ?_⟩
  · intro i; simp [truth]
  · intro q
    simp only [truth, Bool.or_eq_true, decide_eq_true_eq, lt_abs]
    constructor
    · rintro (h | h)
      · exact Or.inl h
      · exact Or.inr (by linarith)
    · rintro (h | h)
      · exact Or.inl h
      · exact Or.inr (by linarith)
  · intro s
    rcases eq_or_ne s "" with rfl | h
    · simp [truth, (String.isEmpty_iff "").mpr rfl]
    · simp [truth, Bool.eq_false_iff, String.isEmpty_iff, h]
  · intro xs
    cases xs <;> simp [truth]
  · intro ks vs
    cases ks <;> simp [truth]
  · intro n; exact ⟨rfl, rfl, rfl, rfl⟩

/-- Claim C10: mixed integer/float arithmetic is asymmetric: with an
integer on the left, `+`, `*`, `/` produce an INTEGER holding the C
truncation of the mixed result; with a float on the left they produce a
FLOAT; hence `+` and `*` are not commutative across mixed operands
(`1 + 0.5` is the integer `1`).  The divisor hypothesis excludes the
division-by-zero case, which is undefined behaviour in the source. -/
theorem mixed_arith_asymmetry (i : Int) (q : ℚ) (hq : q ≠ 0) :
    add (.int i) (.float q) = .int (truncQ ((i : ℚ) + q)) ∧
    add (.float q) (.int i) = .float (q + (i : ℚ)) ∧
    multiply (.int i) (.float q) = .int (truncQ ((i : ℚ) * q)) ∧
    multiply (.float q) (.int i) = .float (q * (i : ℚ)) ∧
    divide (.int i) (.float q) = .int (truncQ ((i : ℚ) / q)) ∧
    divide (.float q) (.int i) = .float (q / (i : ℚ)) ∧
    add (.int 1) (.float (1 / 2)) = .int 1 ∧
    add (.float (1 / 2)) (.int 1) = .float (3 / 2) ∧
    add (.int 1) (.float (1 / 2)) ≠ add (.float (1 / 2)) (.int 1) := by
  refine ⟨rfl, rfl, rfl, rfl, rfl, rfl, ?_, ?_, ?_⟩
  · show Val.int (truncQ ((1 : ℚ) + 1 / 2)) = .int 1
    norm_num [truncQ]
  · show Val.float (1 / 2 + (1 : ℚ)) = .float (3 / 2)
    norm_num
  · intro h
    have h1 : add (.int 1) (.float (1 / 2)) = .int 1 := by
      show Val.int (truncQ ((1 : ℚ) + 1 / 2)) = .int 1
      norm_num [truncQ]
    rw [h1] at h
    exact Val.noConfusion h

/-- Closed witness for the mixed-arithmetic theorem at `i = 1`,
`q = 1/2`. -/
theorem mixed_arith_asymmetry_witness :
    add (.int 1) (.float (1 / 2)) = .int 1 ∧
    add (.float (1 / 2)) (.int 1) = .float (3 / 2) :=
  ⟨(mixed_arith_asymmetry 1 (1 / 2) (by norm_num)).2.2.2.2.2.2.1,
   (mixed_arith_asymmetry 1 (1 / 2) (by norm_num)).2.2.2.2.2.2.2.1⟩

/-! Auxiliary lemmas about `less`, `equal` and the lower-bound search. -/

lemma eq_int_of_ty (x : Val) (h : ty x = VType.integer) : ∃ i : Int, x = .int i := by
  cases x <;> simp_all [ty]

lemma less_int_true {a b : Int} : less (.int a) (.int b) = true ↔ a < b := by
  simp [less]

lemma less_int_false {a b : Int} : less (.int a) (.int b) = false ↔ ¬a < b := by
  simp [less]

lemma equal_int_true {a b : Int} : equal (.int a) (.int b) = true ↔ a = b := by
  simp [equal]

lemma less_nil_right (v : Val) : less v .nil = false := by cases v <;> rfl

lemma less_nil_left (v : Val) : less .nil v = false := by cases v <;> rfl

/-- Out-of-range access in the model yields `.nil`, which is `less` than
nothing; hence hypotheses of the form "everything below `r` is less than
the key" force `r` within bounds. -/
lemma le_length_of_below (xs : List Val) (key : Val) (r : Nat)
    (hlo : ∀ j, j < r → less (xs.getD j .nil) key = true) : r ≤ xs.length := by
  by_contra hlt
  push_neg at hlt
  have h := hlo xs.length hlt
  rw [List.getD_eq_getElem?_getD, List.getElem?_eq_none (le_refl _)] at h
  simp [less_nil_left] at h

lemma getD_int (xs : List Val) (hall : ∀ x ∈ xs, ty x = VType.integer)
    (j : Nat) (hj : j < xs.length) : ∃ a : Int, xs.getD j .nil = .int a := by
  rw [List.getD_eq_getElem _ _ hj]
  exact eq_int_of_ty _ (hall _ (xs.getElem_mem hj))

lemma sorted_getD_lt (xs : List Val) (hsort : sortedKeys xs)
    {i j : Nat} (hij : i < j) (hj : j < xs.length) :
    less (xs.getD i .nil) (xs.getD j .nil) = true := by
  have hi : i < xs.length := lt_trans hij hj
  rw [List.getD_eq_getElem _ _ hi, List.getD_eq_getElem _ _ hj]
  exact (List.pairwise_iff_getElem.mp hsort) i j hi hj hij

/-- Bound on the binary-search result, needed to show that parallel
insertion keeps `keys` and `vals` aligned for arbitrary (mixed-type)
keys. -/
lemma vecLowerBoundBin_le (xs : List Val) (key : Val) (lower : Nat) (upper : Int) :
    vecLowerBoundBin xs key lower upper ≤ max lower (upper + 1).toNat := by
  generalize hm : (upper + 1 - lower).toNat = n
  induction n using Nat.strong_induction_on generalizing lower upper with
  | _ n ih =>
    rw [vecLowerBoundBin]
    split
    · split
      · omega
      · split
        · refine le_trans (ih _ ?_ _ _ rfl) ?_ <;> omega
        · refine le_trans (ih _ ?_ _ _ rfl) ?_ <;> omega
    · omega

lemma vecLowerBoundLin_le (xs : List Val) (key : Val) :
    vecLowerBoundLin xs key ≤ xs.length := by
  induction xs with
  | nil => simp [vecLowerBoundLin]
  | cons x rest ih =>
    rw [vecLowerBoundLin]
    split
    · simpa using ih
    · simp

lemma vec_lower_bound_le (xs : List Val) (key : Val) :
    vec_lower_bound xs key ≤ xs.length := by
  rw [vec_lower_bound]
  split
  · omega
  · split
    · exact vecLowerBoundLin_le xs key
    · refine le_trans (vecLowerBoundBin_le xs key 0 _) ?_
      omega

/-- Specification of the binary branch on strictly sorted all-integer key
vectors: every index below the result holds a key `less` than the target,
every index at or above it does not. -/
lemma vecLowerBoundBin_spec (xs : List Val) (k : Int)
    (hall : ∀ x ∈ xs, ty x = VType.integer) (hsort : sortedKeys xs)
    (lower : Nat) (upper : Int) (hup : upper < (xs.length : Int))
    (hlo : ∀ j, j < lower → less (xs.getD j .nil) (.int k) = true)
    (hhi : ∀ j : Nat, upper < (j : Int) → j < xs.length →
      less (xs.getD j .nil) (.int k) = false) :
    (∀ j, j < vecLowerBoundBin xs (.int k) lower upper →
      less (xs.getD j .nil) (.int k) = true) ∧
    (∀ j : Nat, vecLowerBoundBin xs (.int k) lower upper ≤ j → j < xs.length →
      less (xs.getD j .nil) (.int k) = false) := by
  generalize hm : (upper + 1 - lower).toNat = n
  induction n using Nat.strong_induction_on generalizing lower upper with
  | _ n ih =>
    rw [vecLowerBoundBin]
    split
    · rename_i hle
      have hi_lt : (lower + upper.toNat) / 2 < xs.length := by omega
      obtain ⟨a, ha⟩ := getD_int xs hall _ hi_lt
      split
      · rename_i heq
        rw [ha, equal_int_true] at heq
        subst heq
        constructor
        · intro j hj
          have hj' : j < xs.length := lt_trans hj hi_lt
          obtain ⟨b, hb⟩ := getD_int xs hall j hj'
          have hs := sorted_getD_lt xs hsort hj hi_lt
          rw [hb, ha, less_int_true] at hs
          rw [hb, less_int_true]
          exact hs
        · intro j hj hj'
          rcases eq_or_lt_of_le hj with rfl | hlt
          · rw [ha, less_int_false]; omega
          · obtain ⟨b, hb⟩ := getD_int xs hall j hj'
            have hs := sorted_getD_lt xs hsort hlt hj'
            rw [ha, hb, less_int_true] at hs
            rw [hb, less_int_false]
            omega
      · rename_i hneq
        split
        · rename_i hlt
          rw [ha, less_int_true] at hlt
          refine ih _ ?_ _ _ hup ?_ hhi rfl
          · omega
          · intro j hj
            rcases Nat.lt_succ_iff_lt_or_eq.mp hj with hj | rfl
            · have hj' : j < xs.length := lt_trans hj hi_lt
              obtain ⟨b, hb⟩ := getD_int xs hall j hj'
              have hs := sorted_getD_lt xs hsort hj hi_lt
              rw [hb, ha, less_int_true] at hs
              rw [hb, less_int_true]
              omega
            · rw [ha, less_int_true]; exact hlt
        · rename_i hnlt
          simp only [ha, Bool.not_eq_true, less_int_false] at hnlt
          simp only [ha, equal_int_true] at hneq
          refine ih _ ?_ _ _ ?_ hlo ?_ rfl
          · omega
          · omega
          · intro j hj hj'
            have hij : (lower + upper.toNat) / 2 ≤ j := by omega
            rcases eq_or_lt_of_le hij with rfl | hlt
            · rw [ha, less_int_false]; omega
            · obtain ⟨b, hb⟩ := getD_int xs hall j hj'
              have hs := sorted_getD_lt xs hsort hlt hj'
              rw [ha, hb, less_int_true] at hs
              rw [hb, less_int_false]
              omega
    · rename_i hgt
      refine ⟨fun j hj => hlo j hj, fun j hj hj' => hhi j (by omega) hj'⟩

/-- Specification of the linear branch on strictly sorted all-integer key
vectors. -/
lemma vecLowerBoundLin_spec (xs : List Val) (k : Int)
    (hall : ∀ x ∈ xs, ty x = VType.integer) (hsort : sortedKeys xs) :
    (∀ j, j < vecLowerBoundLin xs (.int k) →
      less (xs.getD j .nil) (.int k) = true) ∧
    (∀ j : Nat, vecLowerBoundLin xs (.int k) ≤ j → j < xs.length →
      less (xs.getD j .nil) (.int k) = false) := by
  induction xs with
  | nil => exact ⟨fun j hj => by simp [vecLowerBoundLin] at hj, fun j _ hj => by simp at hj⟩
  | cons x rest ih =>
    have hallr : ∀ y ∈ rest, ty y = VType.integer := fun y hy => hall y (List.mem_cons_of_mem _ hy)
    have hsortr : sortedKeys rest := (List.pairwise_cons.mp hsort).2
    have hhead : ∀ y ∈ rest, less x y = true := (List.pairwise_cons.mp hsort).1
    obtain ⟨ihlo, ihhi⟩ := ih hallr hsortr
    rw [vecLowerBoundLin]
    split
    · rename_i hx
      constructor
      · intro j hj
        cases j with
        | zero => simpa using hx
        | succ j =>
          have h1 : (x :: rest).getD (j + 1) .nil = rest.getD j .nil := by
            simp [List.getD]
          rw [h1]
          exact ihlo j (by omega)
      · intro j hj hj'
        cases j with
        | zero => omega
        | succ j =>
          have hjr : j < rest.length := by
            simp only [List.length_cons] at hj'; omega
          have h1 : (x :: rest).getD (j + 1) .nil = rest.getD j .nil := by
            simp [List.getD]
          rw [h1]
          exact ihhi j (by omega) hjr
    · rename_i hx
      rw [Bool.not_eq_true] at hx
      constructor
      · intro j hj; omega
      · intro j hj hj'
        cases j with
        | zero => simpa using hx
        | succ j =>
          obtain ⟨a, ha⟩ : ∃ a : Int, x = .int a :=
            eq_int_of_ty x (hall x (List.mem_cons_self _ _))
          have hjr : j < rest.length := by simpa using hj'
          obtain ⟨b, hb⟩ := getD_int rest hallr j hjr
          have hmem : rest.getD j .nil ∈ rest := by
            rw [List.getD_eq_getElem _ _ hjr]; exact rest.getElem_mem hjr
          have hxb := hhead _ hmem
          rw [ha, hb, less_int_true] at hxb
          rw [ha, less_int_false] at hx
          show less ((x :: rest).getD (j + 1) .nil) (.int k) = false
          have : (x :: rest).getD (j + 1) .nil = rest.getD j .nil := by
            simp [List.getD]
          rw [this, hb, less_int_false]
          omega

/-- Specification of `vec_lower_bound` on strictly sorted all-integer key
vectors. -/
lemma vec_lower_bound_spec (xs : List Val) (k : Int)
    (hall : ∀ x ∈ xs, ty x = VType.integer) (hsort : sortedKeys xs) :
    (∀ j, j < vec_lower_bound xs (.int k) →
      less (xs.getD j .nil) (.int k) = true) ∧
    (∀ j : Nat, vec_lower_bound xs (.int k) ≤ j → j < xs.length →
      less (xs.getD j .nil) (.int k) = false) := by
  rw [vec_lower_bound]
  split
  · rename_i h0
    exact ⟨fun j hj => by omega, fun j _ hj => by omega⟩
  · split
    · exact vecLowerBoundLin_spec xs k hall hsort
    · refine vecLowerBoundBin_spec xs k hall hsort 0 _ (by omega)
        (fun j hj => by omega) (fun j hj hj' => by omega)

/-- On a strictly sorted all-integer key vector, a key `equal` to the
target can only sit at the lower-bound index. -/
lemma equal_only_at_lb (xs : List Val) (k : Int)
    (hall : ∀ x ∈ xs, ty x = VType.integer) (hsort : sortedKeys xs)
    (j : Nat) (hj : j < xs.length)
    (heq : equal (xs.getD j .nil) (.int k) = true) :
    j = vec_lower_bound xs (.int k) := by
  obtain ⟨hlo, hhi⟩ := vec_lower_bound_spec xs k hall hsort
  obtain ⟨a, ha⟩ := getD_int xs hall j hj
  rw [ha, equal_int_true] at heq
  by_contra hne
  rcases lt_or_gt_of_ne hne with hlt | hgt
  · have := hlo j hlt
    rw [ha, less_int_true] at this
    omega
  · have hr : vec_lower_bound xs (.int k) < xs.length := lt_trans hgt hj
    obtain ⟨b, hb⟩ := getD_int xs hall _ hr
    have h1 := hhi _ (le_refl _) hr
    rw [hb, less_int_false] at h1
    have h2 := sorted_getD_lt xs hsort hgt hj
    rw [hb, ha, less_int_true] at h2
    omega

/-- When the found-test of `map_ref`/`map_set` fails on a strictly sorted
all-integer key vector, no index holds an `equal` key. -/
lemma no_equal_of_not_found (xs : List Val) (k : Int)
    (hall : ∀ x ∈ xs, ty x = VType.integer) (hsort : sortedKeys xs)
    (hnf : ¬(vec_lower_bound xs (.int k) < xs.length ∧
      equal (xs.getD (vec_lower_bound xs (.int k)) .nil) (.int k) = true)) :
    ∀ j, j < xs.length → equal (xs.getD j .nil) (.int k) = false := by
  intro j hj
  by_contra hne
  rw [Bool.not_eq_false] at hne
  have := equal_only_at_lb xs k hall hsort j hj hne
  subst this
  exact hnf ⟨hj, hne⟩

/-- When the found-test fails, every key at or above the lower bound is
strictly greater than the target (needed for sorted insertion). -/
lemma gt_above_of_not_found (xs : List Val) (k : Int)
    (hall : ∀ x ∈ xs, ty x = VType.integer) (hsort : sortedKeys xs)
    (hnf : ¬(vec_lower_bound xs (.int k) < xs.length ∧
      equal (xs.getD (vec_lower_bound xs (.int k)) .nil) (.int k) = true)) :
    ∀ j : Nat, vec_lower_bound xs (.int k) ≤ j → j < xs.length →
      less (.int k) (xs.getD j .nil) = true := by
  intro j hj hj'
  obtain ⟨hlo, hhi⟩ := vec_lower_bound_spec xs k hall hsort
  obtain ⟨b, hb⟩ := getD_int xs hall j hj'
  have h1 := hhi j hj hj'
  have h2 := no_equal_of_not_found xs k hall hsort hnf j hj'
  rw [hb, less_int_false] at h1
  rw [hb] at h2
  rw [hb, less_int_true]
  have : ¬(b = k) := by
    intro h; subst h; simp [equal] at h2
  omega

/-- Element of an insertion, by position: below the insertion point the
old element, at it the new one, above it the old element shifted by
one. -/
lemma getD_insertIdx_cases {α : Type} (l : List α) (x : α) (r j : Nat) (d : α)
    (hr : r ≤ l.length) (hj : j < l.length + 1) :
    (l.insertIdx r x).getD j d =
      if j < r then l.getD j d else if j = r then x else l.getD (j - 1) d := by
  have hlen : (l.insertIdx r x).length = l.length + 1 := List.length_insertIdx r l hr
  split
  · rename_i hlt
    have hjl : j < l.length := lt_of_lt_of_le hlt hr
    rw [List.getD_eq_getElem _ _ (by omega), List.getD_eq_getElem _ _ hjl]
    exact List.getElem_insertIdx_of_lt l x r j hlt hjl
  · split
    · rename_i hne heq
      subst heq
      rw [List.getD_eq_getElem _ _ (by omega)]
      exact List.getElem_insertIdx_self l x j hr
    · rename_i hge hne
      have hgt : r < j := by omega
      have hj1 : j - 1 < l.length := by omega
      rw [List.getD_eq_getElem _ _ (by omega), List.getD_eq_getElem _ _ hj1]
      have hdecomp : j = r + (j - r - 1) + 1 := by omega
      have hk' : r + (j - r - 1) < l.length := by omega
      have := List.getElem_insertIdx_add_succ l x r (j - r - 1) hk'
        (by rw [hlen]; omega)
      convert this using 2 <;> omega

/-- `map_clr` keeps the all-integer/sorted/parallel-length invariant for
any key. -/
lemma map_clr_invariant (m : MapV) (key : Val)
    (hall : ∀ x ∈ m.keys, ty x = VType.integer) (hsort : sortedKeys m.keys)
    (hlen : m.keys.length = m.vals.length) :
    (∀ x ∈ (map_clr m key).keys, ty x = VType.integer) ∧
    sortedKeys (map_clr m key).keys ∧
    (map_clr m key).keys.length = (map_clr m key).vals.length := by
  rw [map_clr]
  split
  · rename_i hf
    refine ⟨fun x hx => hall x ((List.eraseIdx_sublist _ _).mem hx), hsort.sublist (List.eraseIdx_sublist _ _), ?_⟩
    rw [List.length_eraseIdx, List.length_eraseIdx]
    simp only [hf.1, if_pos, hlen ▸ hf.1]
    omega
  · exact ⟨hall, hsort, hlen⟩

/-- `map_set` with an integer key keeps the all-integer/sorted/
parallel-length invariant. -/
lemma map_set_invariant (m : MapV) (k : Int) (val : Val)
    (hall : ∀ x ∈ m.keys, ty x = VType.integer) (hsort : sortedKeys m.keys)
    (hlen : m.keys.length = m.vals.length) :
    (∀ x ∈ (map_set m (.int k) val).keys, ty x = VType.integer) ∧
    sortedKeys (map_set m (.int k) val).keys ∧
    (map_set m (.int k) val).keys.length = (map_set m (.int k) val).vals.length := by
  rw [map_set]
  split
  · exact map_clr_invariant m (.int k) hall hsort hlen
  · split
    · rename_i hf
      exact ⟨hall, hsort, by simpa using hlen⟩
    · rename_i hnf
      have hr : vec_lower_bound m.keys (.int k) ≤ m.keys.length :=
        vec_lower_bound_le m.keys (.int k)
      have hrv : vec_lower_bound m.keys (.int k) ≤ m.vals.length := hlen ▸ hr
      obtain ⟨hlo, hhi⟩ := vec_lower_bound_spec m.keys k hall hsort
      have hgt := gt_above_of_not_found m.keys k hall hsort (by
        simpa [map_lower_bound] using hnf)
      refine ⟨?_, ?_, ?_⟩
      · intro x hx
        rcases (List.mem_insertIdx hr).mp hx with rfl | hx
        · rfl
        · exact hall x hx
      · rw [sortedKeys, List.pairwise_iff_getElem]
        intro p q hp hq hpq
        have hlen' : (m.keys.insertIdx (map_lower_bound m (.int k)) (.int k)).length
            = m.keys.length + 1 := List.length_insertIdx _ _ hr
        rw [hlen'] at hp hq
        have hgp := getD_insertIdx_cases m.keys (.int k) (map_lower_bound m (.int k)) p Val.nil hr hp
        have hgq := getD_insertIdx_cases m.keys (.int k) (map_lower_bound m (.int k)) q Val.nil hr hq
        rw [← List.getD_eq_getElem _ Val.nil, ← List.getD_eq_getElem _ Val.nil, hgp, hgq]
        simp only [map_lower_bound] at *
        rcases Nat.lt_trichotomy p (vec_lower_bound m.keys (.int k)) with hp1 | hp1 | hp1
        · rw [if_pos hp1]
          rcases Nat.lt_trichotomy q (vec_lower_bound m.keys (.int k)) with hq1 | hq1 | hq1
          · rw [if_pos hq1]
            exact sorted_getD_lt m.keys hsort hpq (by omega)
          · rw [if_neg (by omega), if_pos hq1]
            exact hlo p hp1
          · rw [if_neg (by omega), if_neg (by omega)]
            exact sorted_getD_lt m.keys hsort (by omega) (by omega)
        · rw [if_neg (by omega), if_pos hp1]
          rcases Nat.lt_trichotomy q (vec_lower_bound m.keys (.int k)) with hq1 | hq1 | hq1
          · omega
          · omega
          · rw [if_neg (by omega), if_neg (by omega)]
            exact hgt (q - 1) (by omega) (by omega)
        · rw [if_neg (by omega), if_neg (by omega)]
          rcases Nat.lt_trichotomy q (vec_lower_bound m.keys (.int k)) with hq1 | hq1 | hq1
          · omega
          · omega
          · rw [if_neg (by omega), if_neg (by omega)]
            exact sorted_getD_lt m.keys hsort (by omega) (by omega)
      · simp only [map_lower_bound]
        rw [List.length_insertIdx _ _ hr, List.length_insertIdx _ _ hrv, hlen]

/-- Parallel-length preservation for arbitrary keys and values. -/
lemma map_clr_len (m : MapV) (key : Val) (hlen : m.keys.length = m.vals.length) :
    (map_clr m key).keys.length = (map_clr m key).vals.length := by
  rw [map_clr]
  split
  · rename_i hf
    rw [List.length_eraseIdx, List.length_eraseIdx]
    simp only [hf.1, if_pos, hlen ▸ hf.1]
    omega
  · exact hlen

/-- Parallel-length preservation of `map_set` for arbitrary keys and
values, mixed types included. -/
lemma map_set_len (m : MapV) (key val : Val) (hlen : m.keys.length = m.vals.length) :
    (map_set m key val).keys.length = (map_set m key val).vals.length := by
  rw [map_set]
  split
  · exact map_clr_len m key hlen
  · split
    · simpa using hlen
    · have hr : map_lower_bound m key ≤ m.keys.length := vec_lower_bound_le m.keys key
      rw [List.length_insertIdx _ _ hr, List.length_insertIdx _ _ (hlen ▸ hr), hlen]

lemma applyMOp_len (m : MapV) (op : MOp) (hlen : m.keys.length = m.vals.length) :
    (applyMOp m op).keys.length = (applyMOp m op).vals.length := by
  cases op with
  | set k v => exact map_set_len m k v hlen
  | clr k => exact map_clr_len m k hlen

lemma applyMOps_len (ops : List MOp) (m : MapV) (hlen : m.keys.length = m.vals.length) :
    (applyMOps ops m).keys.length = (applyMOps ops m).vals.length := by
  induction ops generalizing m with
  | nil => exact hlen
  | cons op ops ih => exact ih (applyMOp m op) (applyMOp_len m op hlen)

lemma applyMOps_invariant (ops : List MOp) (hops : ∀ op ∈ ops, op.intKeyed)
    (m : MapV) (hall : ∀ x ∈ m.keys, ty x = VType.integer)
    (hsort : sortedKeys m.keys) (hlen : m.keys.length = m.vals.length) :
    (∀ x ∈ (applyMOps ops m).keys, ty x = VType.integer) ∧
    sortedKeys (applyMOps ops m).keys ∧
    (applyMOps ops m).keys.length = (applyMOps ops m).vals.length := by
  induction ops generalizing m with
  | nil => exact ⟨hall, hsort, hlen⟩
  | cons op ops ih =>
    have hop := hops op (List.mem_cons_self _ _)
    have hrest : ∀ o ∈ ops, o.intKeyed := fun o ho => hops o (List.mem_cons_of_mem _ ho)
    cases op with
    | set key v =>
      obtain ⟨i, rfl⟩ := eq_int_of_ty key hop
      obtain ⟨h1, h2, h3⟩ := map_set_invariant m i v hall hsort hlen
      exact ih hrest (map_set m (.int i) v) h1 h2 h3
    | clr key =>
      obtain ⟨h1, h2, h3⟩ := map_clr_invariant m key hall hsort hlen
      exact ih hrest (map_clr m key) h1 h2 h3

/-- No stored value is ever nil: `map_set` diverts nil values to
`map_clr`, so the `vals` vector never holds one. -/
lemma map_set_noNil (m : MapV) (key val : Val)
    (h : ∀ x ∈ m.vals, ty x ≠ VType.nil) :
    ∀ x ∈ (map_set m key val).vals, ty x ≠ VType.nil := by
  rw [map_set]
  split
  · rw [map_clr]
    split
    · exact fun x hx => h x ((List.eraseIdx_sublist _ _).mem hx)
    · exact h
  · rename_i hv
    split
    · intro x hx
      rcases List.mem_or_eq_of_mem_set hx with hx | rfl
      · exact h x hx
      · exact hv
    · intro x hx
      rcases le_or_lt (map_lower_bound m key) m.vals.length with hle | hlt
      · rcases (List.mem_insertIdx hle).mp hx with rfl | hx
        · exact hv
        · exact h x hx
      · rw [List.insertIdx_of_length_lt _ _ _ hlt] at hx
        exact h x hx

lemma map_clr_noNil (m : MapV) (key : Val)
    (h : ∀ x ∈ m.vals, ty x ≠ VType.nil) :
    ∀ x ∈ (map_clr m key).vals, ty x ≠ VType.nil := by
  rw [map_clr]
  split
  · exact fun x hx => h x ((List.eraseIdx_sublist _ _).mem hx)
  · exact h

lemma applyMOps_noNil (ops : List MOp) (m : MapV)
    (h : ∀ x ∈ m.vals, ty x ≠ VType.nil) :
    ∀ x ∈ (applyMOps ops m).vals, ty x ≠ VType.nil := by
  induction ops generalizing m with
  | nil => exact h
  | cons op ops ih =>
    cases op with
    | set k v => exact ih (map_set m k v) (map_set_noNil m k v h)
    | clr k => exact ih (map_clr m k) (map_clr_noNil m k h)

/-- After `map_clr` on a sorted all-integer map no `equal` key remains
(there was at most one and the lower bound finds it). -/
lemma map_clr_no_equal (m : MapV) (k : Int)
    (hall : ∀ x ∈ m.keys, ty x = VType.integer) (hsort : sortedKeys m.keys) :
    ∀ j, j < (map_clr m (.int k)).keys.length →
      equal ((map_clr m (.int k)).keys.getD j .nil) (.int k) = false := by
  rw [map_clr]
  split
  · rename_i hf
    intro j hj
    rw [List.length_eraseIdx] at hj
    simp only [hf.1, if_pos] at hj
    simp only [map_lower_bound] at hf ⊢
    have hlb := equal_only_at_lb m.keys k hall hsort
    rw [List.getD_eq_getElem?_getD, List.getElem?_eraseIdx]
    split
    · rename_i hjlt
      have hjl : j < m.keys.length := by omega
      rw [List.getElem?_eq_getElem hjl]
      simp only [Option.getD_some]
      by_contra hne
      rw [Bool.not_eq_false] at hne
      have := hlb j hjl (by rw [List.getD_eq_getElem _ _ hjl]; exact hne)
      omega
    · rename_i hjge
      have hjl : j + 1 < m.keys.length := by omega
      rw [List.getElem?_eq_getElem hjl]
      simp only [Option.getD_some]
      by_contra hne
      rw [Bool.not_eq_false] at hne
      have := hlb (j + 1) hjl (by rw [List.getD_eq_getElem _ _ hjl]; exact hne)
      omega
  · rename_i hnf
    simp only [map_lower_bound] at hnf
    exact no_equal_of_not_found m.keys k hall hsort hnf

/-- Claim C3 counterexample: starting from the empty map, the mixed-type
sequence `cexOps` produces the key vector `[5, "a", 3, 5]`, which is not
strictly sorted under `less` and holds the key `5` twice. -/
theorem map_mixed_keys_not_sorted_cex :
    (applyMOps cexOps mapEmpty).keys = [.int 5, .str "a", .int 3, .int 5] ∧
    ¬ sortedKeys (applyMOps cexOps mapEmpty).keys := by
  refine ⟨rfl, ?_⟩
  intro h
  have h1 := (List.pairwise_cons.mp h).1 (.str "a") (List.mem_cons_self _ _)
  rw [show less (.int 5) (.str "a") = false from rfl] at h1
  exact Bool.false_ne_true h1

/-- Claim C3 (amended): for every sequence of `map_set`/`map_clr` from the
empty map the `keys` and `vals` vectors keep equal length; when all keys
in the sequence are of one ordered type (here: all integers) the key
vector additionally remains strictly sorted under `less`.  For mixed-type
key sequences strict sortedness can fail (see the counterexample). -/
theorem map_structural_invariant (ops : List MOp) :
    (applyMOps ops mapEmpty).keys.length = (applyMOps ops mapEmpty).vals.length ∧
    ((∀ op ∈ ops, op.intKeyed) → sortedKeys (applyMOps ops mapEmpty).keys) := by
  constructor
  · exact applyMOps_len ops mapEmpty rfl
  · intro hops
    exact (applyMOps_invariant ops hops mapEmpty (by simp [mapEmpty])
      (List.Pairwise.nil) rfl).2.1

/-- Closed witness for the amended C3 theorem on a concrete all-integer
sequence. -/
theorem map_structural_invariant_witness :
    sortedKeys (applyMOps [MOp.set (.int 5) (.int 10), MOp.set (.int 2) (.int 20),
      MOp.set (.int 9) (.int 30), MOp.clr (.int 5)] mapEmpty).keys :=
  (map_structural_invariant _).2 (by
    intro op hop
    fin_cases hop <;> (show ty _ = VType.integer; rfl))

/-- Claim C4 counterexample: on the reachable duplicate-key map produced
by `cexOps`, `map_set` of nil for key 5 removes only the first duplicate:
lookup finds nothing, yet iteration over the key/value pairs still yields
an entry whose key is `equal` to 5 — so the map still "contains an entry
for k". -/
theorem map_set_nil_entry_remains_cex :
    map_get (map_set (applyMOps cexOps mapEmpty) (.int 5) .nil) (.int 5) = none ∧
    ((map_set (applyMOps cexOps mapEmpty) (.int 5) .nil).keys.zip
      (map_set (applyMOps cexOps mapEmpty) (.int 5) .nil).vals).any
      (fun p => equal p.1 (.int 5)) = true := ⟨rfl, rfl⟩

/-- Claim C4 (amended): on maps whose keys are all integers and strictly
sorted (the well-formed states of the map invariant), `map_set m k nil`
removes any entry for `k` and inserts nothing: no remaining key is `equal`
to `k`, lookup finds nothing, iteration yields no pair for `k`, and the
parallel lengths are kept; moreover no map reachable from the empty map by
`map_set`/`map_clr` ever stores a nil value. -/
theorem assign_nil_deletes (m : MapV) (k : Int)
    (hall : ∀ x ∈ m.keys, ty x = VType.integer) (hsort : sortedKeys m.keys)
    (hlen : m.keys.length = m.vals.length) :
    map_set m (.int k) .nil = map_clr m (.int k) ∧
    (∀ j, j < (map_set m (.int k) .nil).keys.length →
      equal ((map_set m (.int k) .nil).keys.getD j .nil) (.int k) = false) ∧
    map_get (map_set m (.int k) .nil) (.int k) = none ∧
    (∀ p ∈ (map_set m (.int k) .nil).keys.zip (map_set m (.int k) .nil).vals,
      equal p.1 (.int k) = false) ∧
    (map_set m (.int k) .nil).keys.length = (map_set m (.int k) .nil).vals.length ∧
    (∀ ops : List MOp, ∀ x ∈ (applyMOps ops mapEmpty).vals, ty x ≠ VType.nil) := by
  have hdel : map_set m (.int k) .nil = map_clr m (.int k) := by
    rw [map_set]; rfl
  have hnoeq := map_clr_no_equal m k hall hsort
  refine ⟨hdel, ?_, ?_, ?_, ?_, ?_⟩
  · rw [hdel]; exact hnoeq
  · rw [hdel, map_get, map_ref_idx]
    have hc : ¬(map_lower_bound (map_clr m (.int k)) (.int k) <
        (map_clr m (.int k)).keys.length ∧
        equal ((map_clr m (.int k)).keys.getD
          (map_lower_bound (map_clr m (.int k)) (.int k)) .nil) (.int k) = true) := by
      rintro ⟨h1, h2⟩
      rw [hnoeq _ h1] at h2
      exact Bool.false_ne_true h2
    rw [if_neg hc]
  · rw [hdel]
    rintro ⟨a, b⟩ hp
    have ha : a ∈ (map_clr m (.int k)).keys := (List.mem_zip hp).1
    obtain ⟨j, hj, rfl⟩ := List.mem_iff_getElem.mp ha
    rw [← List.getD_eq_getElem _ Val.nil hj]
    exact hnoeq j hj
  · rw [hdel]; exact map_clr_len m (.int k) hlen
  · exact fun ops => applyMOps_noNil ops mapEmpty (by simp [mapEmpty])

/-- Closed witness for the amended C4 theorem on a concrete sorted
integer-keyed map. -/
theorem assign_nil_deletes_witness :
    map_get (map_set ⟨[.int 1, .int 5], [.int 10, .int 20]⟩ (.int 5) .nil) (.int 5)
      = none :=
  (assign_nil_deletes ⟨[.int 1, .int 5], [.int 10, .int 20]⟩ 5
    (by intro x hx; fin_cases hx <;> rfl)
    (by unfold sortedKeys; decide) rfl).2.2.1

/-- Claim C6 counterexample: `.int 0` and `.str ""` have different types
and are not `equal`, yet NEITHER `less (.int 0) (.str "")` nor
`less (.str "") (.int 0)` holds — `less` does not compare types first and
is not a total order across types. -/
theorem less_not_total_across_types_cex :
    ty (.int 0) ≠ ty (.str "") ∧
    equal (.int 0) (.str "") = false ∧
    less (.int 0) (.str "") = false ∧
    less (.str "") (.int 0) = false :=
  ⟨fun h => VType.noConfusion h, rfl, rfl, rfl⟩

/-- Claim C6 (amended): `less` — used for map-key ordering and the
`<` `<=` `>` `>=` opcodes — compares ONLY same-typed operands: for any
two operands of different types both `less(a,b)` and `less(b,a)` are
false (there is no nil < int < float < string type precedence, and the
order is not total across types).  For same-typed operands it is the
type-specific comparison: numeric value for integers and floats,
byte-lexicographic order for strings, size for vectors and maps. -/
theorem less_same_type_only (a b : Val) (hab : ty a ≠ ty b) :
    less a b = false ∧ less b a = false ∧
    (∀ i j : Int, less (.int i) (.int j) = true ↔ i < j) ∧
    (∀ p q : ℚ, less (.float p) (.float q) = true ↔ p < q) ∧
    (∀ s t : String, less (.str s) (.str t) = true ↔ s < t) ∧
    (∀ xs ys : List Val, less (.vec xs) (.vec ys) = true ↔ xs.length < ys.length) ∧
    (∀ ka va kb vb : List Val,
      less (.map ka va) (.map kb vb) = true ↔ ka.length < kb.length) := by
  refine ⟨?_, ?_, ?_, ?_, ?_, ?_, ?_⟩
  · cases a <;> cases b <;> first | rfl | (exact absurd rfl hab)
  · cases a <;> cases b <;> first | rfl | (exact absurd rfl hab)
  · intro i j; simp [less]
  · intro p q; simp [less]
  · intro s t
    simp only [less, Bool.and_eq_true, bne_iff_ne, ne_eq, decide_eq_true_eq]
    exact ⟨fun h => h.2, fun h => ⟨ne_of_lt h, h⟩⟩
  · intro xs ys; simp [less]
  · intro ka va kb vb; simp [less]

/-- Closed witness for the amended C6 theorem at `.int 0` versus
`.str ""`. -/
theorem less_same_type_only_witness :
    less (.int 0) (.str "") = false ∧ less (.str "") (.int 0) = false :=
  ⟨(less_same_type_only (.int 0) (.str "") (fun h => VType.noConfusion h)).1,
   (less_same_type_only (.int 0) (.str "") (fun h => VType.noConfusion h)).2.1⟩

/-- Claim C1: MARK/LIMIT envelope contract.  Executing MARK at depth `d`,
then any opcode sequence that finishes with the mark stack balanced (the
pushed mark back on top), then LIMIT `n` with `n >= 0`, pops exactly one
mark and leaves the operand stack at depth exactly `d + n`, truncating the
surplus from the top or padding with nils; LIMIT `-1` pops the mark and
leaves the produced values unchanged. -/
theorem mark_limit_envelope (st s' : Cor) (seq : List Op) (n : Int)
    (hrun : exec (opMark st) seq = some s')
    (hbal : s'.marks = st.marks ++ [st.stack.length]) :
    (0 ≤ n → ∃ s'', limit s' n = some s'' ∧
      s''.marks = st.marks ∧
      (s''.stack.length : Int) = (st.stack.length : Int) + n ∧
      (st.stack.length + n.toNat ≤ s'.stack.length →
        s''.stack = s'.stack.take (st.stack.length + n.toNat)) ∧
      (s'.stack.length ≤ st.stack.length + n.toNat →
        s''.stack = s'.stack ++
          List.replicate (st.stack.length + n.toNat - s'.stack.length) .nil)) ∧
    (n = -1 → limit s' n = some { s' with marks := st.marks }) := by
  have hlast : s'.marks.getLast? = some st.stack.length := by
    rw [hbal]; exact List.getLast?_concat _
  have hdrop : s'.marks.dropLast = st.marks := by
    rw [hbal]; exact List.dropLast_concat
  constructor
  · intro hn
    rw [limit, hlast]
    simp only [if_pos hn]
    split
    · rename_i hlt
      refine ⟨_, rfl, hdrop, ?_, ?_, ?_⟩
      · rw [List.length_take]; omega
      · intro h
        have heq : ((st.stack.length : Int) + n).toNat = st.stack.length + n.toNat := by
          omega
        rw [heq]
      · intro h
        have : ((st.stack.length : Int) + n).toNat = s'.stack.length := by omega
        rw [this, List.take_length]
        have hz : st.stack.length + n.toNat - s'.stack.length = 0 := by omega
        rw [hz]
        simp
    · rename_i hge
      refine ⟨_, rfl, hdrop, ?_, ?_, ?_⟩
      · rw [List.length_append, List.length_replicate]; omega
      · intro h
        have heq : st.stack.length + n.toNat = s'.stack.length := by omega
        have hz : ((st.stack.length : Int) + n).toNat - s'.stack.length = 0 := by omega
        rw [hz, heq, List.take_length]
        simp
      · intro h
        have heq : ((st.stack.length : Int) + n).toNat - s'.stack.length
            = st.stack.length + n.toNat - s'.stack.length := by omega
        rw [heq]
  · intro hn
    subst hn
    rw [limit, hlast]
    norm_num
    rw [hdrop]

/-- Closed witness for the MARK/LIMIT envelope: from the empty state, the
sequence LIT nil, MARK, LIT 1, LIMIT 0 returns with the outer mark
balanced, and LIMIT 2 then lands at depth exactly 2. -/
theorem mark_limit_envelope_witness :
    ∃ s'', limit ⟨[.nil], [], [0], [], [], .nil, 0, .running⟩ 2 = some s'' ∧
      s''.marks = [] ∧ s''.stack.length = 2 := by
  obtain ⟨h1, _⟩ := mark_limit_envelope ⟨[], [], [], [], [], .nil, 0, .running⟩
    ⟨[.nil], [], [0], [], [], .nil, 0, .running⟩
    [.lit .nil, .mark, .lit (.int 1), .limitOp 0] 2 rfl rfl
  obtain ⟨s'', hs1, hs2, hs3, _⟩ := h1 (by norm_num)
  refine ⟨s'', hs1, hs2, ?_⟩
  simp only [List.length_cons, List.length_nil] at hs3
  omega

/-- Claim C2: subroutine call discipline.  `call` on a SUBROUTINE pushes a
frame saving the caller's loop depth, mark depth and instruction pointer
with empty locals and scope path, jumps to the entry point, leaves the
operand stack untouched, and pushes a mark equal to the stack depth minus
the argument count — so the callee's subframe holds exactly the `argc`
arguments, visible as `item(0) .. item(argc-1)`. -/
theorem call_discipline (c : Cor) (entry : Nat)
    (hbase : c.marks.getLastD 0 ≤ c.stack.length) :
    ∃ c', call c (.sub entry) = some c' ∧
      c'.frames = c.frames ++ [⟨c.loops.length, c.marks.length, c.ip, [], [], c.cmap⟩] ∧
      c'.ip = entry ∧
      c'.stack = c.stack ∧
      c'.marks = c.marks ++ [((c.stack.length : Int) - depthV c).toNat] ∧
      ((c.stack.length : Int) - depthV c).toNat = c.marks.getLastD 0 ∧
      depthV c' = depthV c ∧
      (∀ i : Nat, (i : Int) < depthV c →
        itemV c' i = c.stack.getD (c.marks.getLastD 0 + i) .nil) := by
  refine ⟨_, rfl, ?_, rfl, rfl, ?_, ?_, ?_, ?_⟩
  · rfl
  · show (c.marks ++ [c.stack.length]).dropLast ++ _ = _
    rw [List.dropLast_concat]
    congr 2
  · rw [depthV]; omega
  · show (c.stack.length : Int) -
      (((c.marks ++ [c.stack.length]).dropLast ++
        [((c.stack.length : Int) - depthV c).toNat]).getLastD 0 : Int) = depthV c
    rw [List.dropLast_concat, List.getLastD_concat]
    rw [depthV]
    omega
  · intro i hi
    show List.getD c.stack
      (((c.marks ++ [c.stack.length]).dropLast ++
        [((c.stack.length : Int) - depthV c).toNat]).getLastD 0 + i) .nil = _
    rw [List.dropLast_concat, List.getLastD_concat]
    congr 1
    rw [depthV]
    omega

/-- Closed witness for the call discipline at a concrete caller state with
two argument values above the mark. -/
theorem call_discipline_witness :
    ∃ c', call ⟨[.int 7, .int 8], [], [0], [], [], .nil, 5, .running⟩ (.sub 42)
        = some c' ∧
      c'.ip = 42 ∧ depthV c' = 2 ∧
      itemV c' 0 = .int 7 ∧ itemV c' 1 = .int 8 := by
  obtain ⟨c', h1, _, h3, _, _, _, h6, h7⟩ :=
    call_discipline ⟨[.int 7, .int 8], [], [0], [], [], .nil, 5, .running⟩ 42
      (by norm_num)
  refine ⟨c', h1, h3, by rw [h6]; rfl, ?_, ?_⟩
  · have := h7 0 (by norm_num [depthV])
    rw [this]; rfl
  · have := h7 1 (by norm_num [depthV])
    rw [this]; rfl

/-- The lookup chain of `find` is first-match over the four scopes. -/
lemma find_first (sc : Scopes) (c1 : Cor) (s : String) :
    find sc c1 s = ((localFn c1 s).or ((uplocalFn c1 s).or
      ((map_get sc.scope_global (.str s)).or (map_get sc.scope_core (.str s))))) := by
  rw [find]
  cases localFn c1 s <;> cases uplocalFn c1 s <;>
    cases map_get sc.scope_global (.str s) <;>
    cases map_get sc.scope_core (.str s) <;> rfl

/-- Reduction of `op_find` when the stack top is a name string. -/
lemma op_find_eq (sc : Scopes) (c : Cor) (s : String)
    (htop : c.stack.getLast? = some (.str s)) :
    op_find sc c = (match find sc { c with stack := c.stack.dropLast } s with
      | some v => .ok (pushV { c with stack := c.stack.dropLast } v)
      | none => .error "unknown name") := by
  rw [op_find, popV, htop]

/-- Claim C7: name resolution order and failure.  With a name string on
top of the stack, FIND pushes the first binding found among (1) the
current frame's locals, (2) the locals of older frames whose function
identifier appears in the current frame's scope path (skipping outer
recursive calls of the same function — see `uplocalFn`), (3) the global
scope, (4) the core scope; and it raises the fatal "unknown name" error
if and only if all four lookups fail. -/
theorem name_resolution_order (sc : Scopes) (c : Cor) (s : String)
    (htop : c.stack.getLast? = some (.str s)) :
    (op_find sc c = .error "unknown name" ↔
      (localFn c s = none ∧ uplocalFn c s = none ∧
        map_get sc.scope_global (.str s) = none ∧
        map_get sc.scope_core (.str s) = none)) ∧
    (∀ v, localFn c s = some v →
      op_find sc c = .ok (pushV { c with stack := c.stack.dropLast } v)) ∧
    (∀ v, localFn c s = none → uplocalFn c s = some v →
      op_find sc c = .ok (pushV { c with stack := c.stack.dropLast } v)) ∧
    (∀ v, localFn c s = none → uplocalFn c s = none →
      map_get sc.scope_global (.str s) = some v →
      op_find sc c = .ok (pushV { c with stack := c.stack.dropLast } v)) ∧
    (∀ v, localFn c s = none → uplocalFn c s = none →
      map_get sc.scope_global (.str s) = none →
      map_get sc.scope_core (.str s) = some v →
      op_find sc c = .ok (pushV { c with stack := c.stack.dropLast } v)) := by
  have hofe := op_find_eq sc c s htop
  have hl : localFn { c with stack := c.stack.dropLast } s = localFn c s := rfl
  have hu : uplocalFn { c with stack := c.stack.dropLast } s = uplocalFn c s := rfl
  have hff := find_first sc { c with stack := c.stack.dropLast } s
  rw [hl, hu] at hff
  refine ⟨⟨?_, ?_⟩, ?_, ?_, ?_, ?_⟩
  · intro h
    rw [hofe] at h
    cases hf : find sc { c with stack := c.stack.dropLast } s with
    | some v => rw [hf] at h; exact Except.noConfusion h
    | none =>
      rw [hf] at hff
      rcases h1 : localFn c s with _ | v
      · rcases h2 : uplocalFn c s with _ | v
        · rcases h3 : map_get sc.scope_global (.str s) with _ | v
          · rcases h4 : map_get sc.scope_core (.str s) with _ | v
            · exact ⟨rfl, rfl, rfl, rfl⟩
            · rw [h1, h2, h3, h4] at hff; exact Option.noConfusion hff
          · rw [h1, h2, h3] at hff; exact Option.noConfusion hff
        · rw [h1, h2] at hff; exact Option.noConfusion hff
      · rw [h1] at hff; exact Option.noConfusion hff
  · rintro ⟨h1, h2, h3, h4⟩
    rw [hofe]
    have hf : find sc { c with stack := c.stack.dropLast } s = none := by
      rw [hff, h1, h2, h3, h4]; rfl
    rw [hf]
  · intro v h1
    rw [hofe]
    have hf : find sc { c with stack := c.stack.dropLast } s = some v := by
      rw [hff, h1]; rfl
    rw [hf]
  · intro v h1 h2
    rw [hofe]
    have hf : find sc { c with stack := c.stack.dropLast } s = some v := by
      rw [hff, h1, h2]; rfl
    rw [hf]
  · intro v h1 h2 h3
    rw [hofe]
    have hf : find sc { c with stack := c.stack.dropLast } s = some v := by
      rw [hff, h1, h2, h3]; rfl
    rw [hf]
  · intro v h1 h2 h3 h4
    rw [hofe]
    have hf : find sc { c with stack := c.stack.dropLast } s = some v := by
      rw [hff, h1, h2, h3, h4]; rfl
    rw [hf]

/-- Closed witness for the name-resolution theorem: a state with no frames
and empty scopes raises "unknown name", and a state whose global scope
binds the name pushes its value. -/
theorem name_resolution_order_witness :
    op_find ⟨⟨[], []⟩, ⟨[], []⟩⟩
      ⟨[.str "x"], [], [], [], [], .nil, 0, .running⟩ = .error "unknown name" ∧
    op_find ⟨⟨[.str "x"], [.int 9]⟩, ⟨[], []⟩⟩
      ⟨[.str "x"], [], [], [], [], .nil, 0, .running⟩
      = .ok (pushV ⟨[], [], [], [], [], .nil, 0, .running⟩ (.int 9)) := by
  constructor
  · exact (name_resolution_order ⟨⟨[], []⟩, ⟨[], []⟩⟩
      ⟨[.str "x"], [], [], [], [], .nil, 0, .running⟩ "x" rfl).1.mpr
      ⟨rfl, rfl, rfl, rfl⟩
  · exact (name_resolution_order ⟨⟨[.str "x"], [.int 9]⟩, ⟨[], []⟩⟩
      ⟨[.str "x"], [], [], [], [], .nil, 0, .running⟩ "x" rfl).2.2.2.1
      (.int 9) rfl rfl rfl

/-- Claim C8: resuming a DEAD coroutine returns nil.  When `item(0)` of
the caller's non-empty subframe is a coroutine whose state is DEAD,
`op_resume` removes the coroutine value and all argument values from the
caller's subframe and pushes the single value nil; the routines chain, the
current-routine index, the dead coroutine (its state and stacks) and every
other coroutine are unchanged.  The currently executing routine is never
DEAD (the main routine stays SUSPENDED, resumed coroutines are RUNNING),
so the caller's and the dead target's heap slots are distinct. -/
theorem resume_dead_returns_nil (vm : VM) (caller cor : Cor) (ref : Nat)
    (hcur : vm.cors[vm.current]? = some caller)
    (hdep : 0 < depthV caller)
    (hitem : itemV caller 0 = .cor ref)
    (href : vm.cors[ref]? = some cor)
    (hdead : cor.state = .dead)
    (hlive : caller.state ≠ .dead) :
    ∃ vm', op_resume vm = some vm' ∧
      vm'.routines = vm.routines ∧
      vm'.current = vm.current ∧
      vm'.cors[ref]? = some cor ∧
      (∀ j, j ≠ vm.current → vm'.cors[j]? = vm.cors[j]?) ∧
      ∃ caller', vm'.cors[vm.current]? = some caller' ∧
        caller'.stack = caller.stack.take (caller.marks.getLastD 0) ++ [.nil] ∧
        caller'.marks = caller.marks ∧ caller'.frames = caller.frames ∧
        caller'.state = caller.state ∧ caller'.ip = caller.ip ∧
        depthV caller' = 1 ∧ itemV caller' 0 = .nil := by
  have hne : ref ≠ vm.current := by
    intro h
    rw [h, hcur] at href
    have heq : caller = cor := Option.some_inj.mp href
    exact hlive (by rw [heq]; exact hdead)
  have hcl : vm.current < vm.cors.length := by
    by_contra hc
    rw [List.getElem?_eq_none (by omega)] at hcur
    exact Option.noConfusion hcur
  have hbase : caller.marks.getLastD 0 < caller.stack.length := by
    rw [depthV] at hdep; omega
  have htake : caller.stack.length - (depthV caller).toNat = caller.marks.getLastD 0 := by
    rw [depthV]; omega
  rw [op_resume, hcur]
  simp only [if_pos hdep, hitem, href, if_pos hdead]
  refine ⟨_, rfl, rfl, rfl, ?_, ?_, ?_⟩
  · rw [List.getElem?_set_ne hne.symm]
    exact href
  · intro j hj
    rw [List.getElem?_set_ne (fun h => hj h.symm)]
  · refine ⟨pushV { caller with stack :=
        (caller.stack.take (caller.stack.length - (depthV caller).toNat)) } .nil,
      ?_, ?_, rfl, rfl, rfl, rfl, ?_, ?_⟩
    · rw [List.getElem?_set_self hcl]
    · show caller.stack.take (caller.stack.length - (depthV caller).toNat) ++ [.nil]
        = caller.stack.take (caller.marks.getLastD 0) ++ [.nil]
      rw [htake]
    · show ((caller.stack.take (caller.stack.length - (depthV caller).toNat)
        ++ [Val.nil]).length : Int) - (caller.marks.getLastD 0 : Int) = 1
      rw [htake, List.length_append, List.length_take]
      simp only [List.length_cons, List.length_nil]
      omega
    · show (caller.stack.take (caller.stack.length - (depthV caller).toNat)
        ++ [Val.nil]).getD (caller.marks.getLastD 0 + 0) .nil = .nil
      rw [htake]
      have hlt : caller.marks.getLastD 0 ≤ caller.stack.length := le_of_lt hbase
      have hlen : (caller.stack.take (caller.marks.getLastD 0)).length
          = caller.marks.getLastD 0 := by
        rw [List.length_take]; omega
      rw [Nat.add_zero, List.getD_eq_getElem?_getD,
        List.getElem?_append_right (le_of_eq hlen)]
      simp [hlen]

/-- Closed witness for the dead-resume theorem at the top-level case: the
caller is the main routine, whose state stays SUSPENDED, holding the dead
coroutine value and one argument in its subframe. -/
theorem resume_dead_returns_nil_witness :
    ∃ vm', op_resume
        ⟨[⟨[.int 7, .cor 1, .int 3], [], [1], [], [], .nil, 4, .suspended⟩,
          ⟨[], [], [], [], [], .nil, 9, .dead⟩], [0], 0⟩ = some vm' ∧
      vm'.routines = [0] ∧ vm'.current = 0 ∧
      ∃ caller', vm'.cors[0]? = some caller' ∧
        caller'.stack = [.int 7, .nil] ∧ itemV caller' 0 = .nil := by
  obtain ⟨vm', h1, h2, h3, _, _, caller', h6, h7, _, _, _, _, _, h12⟩ :=
    resume_dead_returns_nil
      ⟨[⟨[.int 7, .cor 1, .int 3], [], [1], [], [], .nil, 4, .suspended⟩,
        ⟨[], [], [], [], [], .nil, 9, .dead⟩], [0], 0⟩
      ⟨[.int 7, .cor 1, .int 3], [], [1], [], [], .nil, 4, .suspended⟩
      ⟨[], [], [], [], [], .nil, 9, .dead⟩ 1
      rfl (by norm_num [depthV]) rfl rfl rfl (by decide)
  exact ⟨vm', h1, h2, h3, caller', h6, by rw [h7]; rfl, h12⟩

lemma strcmpM_eq_zero {a b : String} : strcmpM a b = 0 ↔ a = b := by
  rw [strcmpM]
  split
  · rename_i h
    exact ⟨fun hc => absurd hc (by norm_num), fun hc => absurd (hc ▸ h) (lt_irrefl b)⟩
  · split
    · rename_i h; exact ⟨fun _ => h, fun _ => rfl⟩
    · rename_i h1 h2
      exact ⟨fun hc => absurd hc (by norm_num), fun hc => absurd hc h2⟩

lemma strcmpM_lt_zero {a b : String} : strcmpM a b < 0 ↔ a < b := by
  rw [strcmpM]
  split
  · rename_i h; exact ⟨fun _ => h, fun _ => by norm_num⟩
  · split
    · rename_i h
      exact ⟨fun hc => absurd hc (by norm_num), fun hc => absurd (h ▸ hc) (lt_irrefl b)⟩
    · rename_i h1 h2
      exact ⟨fun hc => absurd hc (by norm_num), fun hc => absurd hc h1⟩

/-- Specification of the `str_lower_bound` loop on a strictly sorted cell
array. -/
lemma strLBGo_spec (cells : List String) (s : String)
    (hsort : List.Pairwise (· < ·) cells)
    (lower : Nat) (upper : Int) (index : Nat)
    (hidx : index = lower)
    (hup : upper < (cells.length : Int))
    (hlu : (lower : Int) ≤ upper + 1)
    (hlo : ∀ j, j < lower → cells.getD j "" < s)
    (hhi : ∀ j : Nat, upper < (j : Int) → j < cells.length → s < cells.getD j "") :
    strLBGo cells s lower upper index ≤ cells.length ∧
    (∀ j, j < strLBGo cells s lower upper index → cells.getD j "" < s) ∧
    (∀ j : Nat, strLBGo cells s lower upper index ≤ j → j < cells.length →
      ¬ cells.getD j "" < s) := by
  generalize hm : (upper + 1 - lower).toNat = n
  induction n using Nat.strong_induction_on generalizing lower upper index with
  | _ n ih =>
    rw [strLBGo]
    split
    · rename_i hle
      have hi_lt : (lower + upper.toNat) / 2 < cells.length := by omega
      have hsget : ∀ a b : Nat, a < b → b < cells.length →
          cells.getD a "" < cells.getD b "" := by
        intro a b h1 h2
        rw [List.getD_eq_getElem _ _ (lt_trans h1 h2), List.getD_eq_getElem _ _ h2]
        exact List.pairwise_iff_getElem.mp hsort a b _ _ h1
      split
      · rename_i heq
        rw [strcmpM_eq_zero] at heq
        refine ⟨le_of_lt hi_lt, ?_, ?_⟩
        · intro j hj
          rw [← heq]
          exact hsget j _ hj hi_lt
        · intro j hj hj'
          rcases eq_or_lt_of_le hj with rfl | hlt
          · rw [heq]; exact lt_irrefl s
          · rw [← heq]
            exact lt_asymm (hsget _ j hlt hj')
      · rename_i hne
        split
        · rename_i hltm
          rw [strcmpM_lt_zero] at hltm
          refine ih _ (by omega) _ _ _ rfl hup (by omega) ?_ hhi rfl
          intro j hj
          rcases Nat.lt_succ_iff_lt_or_eq.mp hj with hj | rfl
          · exact lt_trans (hsget j _ hj hi_lt) hltm
          · exact hltm
        · rename_i hnlt
          rw [strcmpM_lt_zero] at hnlt
          rw [strcmpM_eq_zero] at hne
          have hgtm : s < cells.getD ((lower + upper.toNat) / 2) "" := by
            rcases lt_trichotomy (cells.getD ((lower + upper.toNat) / 2) "") s with h | h | h
            · exact absurd h hnlt
            · exact absurd h hne
            · exact h
          refine ih _ (by omega) _ _ _ rfl (by omega) (by omega) hlo ?_ rfl
          intro j hj hj'
          have hij : (lower + upper.toNat) / 2 ≤ j := by omega
          rcases eq_or_lt_of_le hij with rfl | hlt
          · exact hgtm
          · exact lt_trans hgtm (hsget _ j hlt hj')
    · rename_i hgt
      subst hidx
      refine ⟨by omega, hlo, fun j hj hj' => lt_asymm (hhi j (by omega) hj')⟩

/-- Specification of `str_lower_bound` on a strictly sorted cell array. -/
lemma str_lower_bound_spec (cells : List String) (s : String)
    (hsort : List.Pairwise (· < ·) cells) :
    str_lower_bound cells s ≤ cells.length ∧
    (∀ j, j < str_lower_bound cells s → cells.getD j "" < s) ∧
    (∀ j : Nat, str_lower_bound cells s ≤ j → j < cells.length →
      ¬ cells.getD j "" < s) := by
  rw [str_lower_bound]
  split
  · rename_i h0
    exact ⟨by omega, fun j hj => by omega, fun j hj hj' => by omega⟩
  · exact strLBGo_spec cells s hsort 0 _ 0 rfl (by omega) (by omega)
      (fun j hj => by omega) (fun j hj hj' => by omega)

/-- On a strictly sorted cell array, a cell holding exactly `s` can only
sit at the lower-bound index. -/
lemma str_found_at_lb (cells : List String) (s : String)
    (hsort : List.Pairwise (· < ·) cells)
    (j : Nat) (hj : j < cells.length) (hjs : cells.getD j "" = s) :
    j = str_lower_bound cells s := by
  obtain ⟨hle, hlo, hhi⟩ := str_lower_bound_spec cells s hsort
  by_contra hne
  rcases lt_or_gt_of_ne hne with hlt | hgt
  · exact absurd (hjs ▸ hlo j hlt) (lt_irrefl s)
  · have hr : str_lower_bound cells s < cells.length := lt_trans hgt hj
    have h2 : cells.getD (str_lower_bound cells s) "" < cells.getD j "" := by
      rw [List.getD_eq_getElem _ _ hr, List.getD_eq_getElem _ _ hj]
      exact List.pairwise_iff_getElem.mp hsort _ j _ _ hgt
    exact absurd (hjs ▸ h2) (hhi _ (le_refl _) hr)

/-- When no cell holds `s`, the found-test fails and every cell at or
above the lower bound is strictly greater than `s`. -/
lemma str_not_found (cells : List String) (s : String)
    (hsort : List.Pairwise (· < ·) cells)
    (habs : ∀ j, j < cells.length → cells.getD j "" ≠ s) :
    ∀ j : Nat, str_lower_bound cells s ≤ j → j < cells.length →
      s < cells.getD j "" := by
  intro j hj hj'
  obtain ⟨hle, hlo, hhi⟩ := str_lower_bound_spec cells s hsort
  rcases lt_trichotomy s (cells.getD j "") with h | h | h
  · exact h
  · exact absurd h.symm (habs j hj')
  · exact absurd h (hhi j hj hj')

lemma regionCells_length (st : InternState) (r : List Nat) :
    (regionCells st r).length = r.length := List.length_map r _

lemma regionCells_getD (st : InternState) (r : List Nat) (j : Nat) (hj : j < r.length) :
    (regionCells st r).getD j "" = content st (r.getD j 0) := by
  rw [List.getD_eq_getElem _ _ (by rw [regionCells_length]; exact hj),
    List.getD_eq_getElem _ _ hj]
  exact List.getElem_map _

lemma regionCells_sorted (st : InternState) (r : List Nat)
    (h : List.Pairwise (fun p q => content st p < content st q) r) :
    List.Pairwise (· < ·) (regionCells st r) := List.pairwise_map.mpr h

lemma region_content_inj (st : InternState) (r : List Nat)
    (hs : List.Pairwise (fun p q => content st p < content st q) r) :
    ∀ x ∈ r, ∀ y ∈ r, content st x = content st y → x = y := by
  intro x hx y hy hc
  obtain ⟨i, hi, rfl⟩ := List.mem_iff_getElem.mp hx
  obtain ⟨j, hj, rfl⟩ := List.mem_iff_getElem.mp hy
  have hpg := List.pairwise_iff_getElem.mp hs
  rcases lt_trichotomy i j with h | h | h
  · exact absurd (hc ▸ hpg i j hi hj h) (lt_irrefl _)
  · subst h; rfl
  · exact absurd (hc ▸ hpg j i hj hi h) (lt_irrefl _)

/-- When the target bytes are stored in the old region, `strintern`
returns that stored pointer and leaves the state unchanged (via the
pointer-identity shortcut when the argument is the stored pointer
itself). -/
lemma strintern_found_B (st : InternState) (p : Nat) (hwf : WFIntern st)
    (j0 : Nat) (hj0 : j0 < st.stringsB.length)
    (hc : content st (st.stringsB.getD j0 0) = content st p) :
    strintern st p = (st, st.stringsB.getD j0 0) := by
  have hlb : j0 = str_lower_bound (regionCells st st.stringsB) (content st p) := by
    refine str_found_at_lb _ _ (regionCells_sorted st _ hwf.sortedB) j0
      (by rw [regionCells_length]; exact hj0) ?_
    rw [regionCells_getD st _ j0 hj0]
    exact hc
  rw [strintern, ← hlb]
  split
  · rename_i h1
    rw [← h1.2]
  · split
    · rfl
    · rename_i h1 h2
      exact absurd ⟨hj0, hc⟩ h2

/-- When the target bytes are stored in the young region (and hence, by
region disjointness, not in the old one), `strintern` returns that stored
pointer and leaves the state unchanged. -/
lemma strintern_found_A (st : InternState) (p : Nat) (hwf : WFIntern st)
    (j0 : Nat) (hj0 : j0 < st.stringsA.length)
    (hc : content st (st.stringsA.getD j0 0) = content st p) :
    strintern st p = (st, st.stringsA.getD j0 0) := by
  have hmemA : st.stringsA.getD j0 0 ∈ st.stringsA := by
    rw [List.getD_eq_getElem _ _ hj0]; exact List.getElem_mem hj0
  have hnotB : ∀ i, i < st.stringsB.length →
      content st (st.stringsB.getD i 0) ≠ content st p := by
    intro i hi hcb
    have hmemB : st.stringsB.getD i 0 ∈ st.stringsB := by
      rw [List.getD_eq_getElem _ _ hi]; exact List.getElem_mem hi
    exact hwf.disj _ hmemB _ hmemA (hcb.trans hc.symm)
  have hlb : j0 = str_lower_bound (regionCells st st.stringsA) (content st p) := by
    refine str_found_at_lb _ _ (regionCells_sorted st _ hwf.sortedA) j0
      (by rw [regionCells_length]; exact hj0) ?_
    rw [regionCells_getD st _ j0 hj0]
    exact hc
  rw [strintern, ← hlb]
  split
  · rename_i h1
    exact absurd (congrArg (content st) h1.2) (hnotB _ h1.1)
  · split
    · rename_i h1 h2
      exact absurd h2.2 (hnotB _ h2.1)
    · split
      · rename_i h3
        rw [← h3.2]
      · split
        · rfl
        · rename_i h3 h4
          exact absurd ⟨hj0, hc⟩ h4

/-- When neither region stores the target bytes, `strintern` copies them
into a fresh heap cell and inserts the new pointer into the young region
at the lower-bound position. -/
lemma strintern_not_found (st : InternState) (p : Nat)
    (habsB : ∀ i, i < st.stringsB.length →
      content st (st.stringsB.getD i 0) ≠ content st p)
    (habsA : ∀ i, i < st.stringsA.length →
      content st (st.stringsA.getD i 0) ≠ content st p) :
    strintern st p = (⟨st.heap ++ [content st p],
      st.stringsA.insertIdx
        (str_lower_bound (regionCells st st.stringsA) (content st p)) st.heap.length,
      st.stringsB⟩, st.heap.length) := by
  rw [strintern]
  split
  · rename_i h1
    exact absurd (congrArg (content st) h1.2) (habsB _ h1.1)
  · split
    · rename_i h1 h2
      exact absurd h2.2 (habsB _ h2.1)
    · split
      · rename_i h3
        exact absurd (congrArg (content st) h3.2) (habsA _ h3.1)
      · split
        · rename_i h3 h4
          exact absurd h4.2 (habsA _ h4.1)
        · rfl

/-- Outcome analysis of `strintern` on a well-formed state: either the
bytes were already stored and the state is unchanged, or both regions miss
and a fresh copy is inserted into the young region. -/
lemma strintern_cases (st : InternState) (p : Nat) (hwf : WFIntern st) :
    (∃ r, (r ∈ st.stringsB ∨ r ∈ st.stringsA) ∧ content st r = content st p ∧
      strintern st p = (st, r)) ∨
    ((∀ r, (r ∈ st.stringsB ∨ r ∈ st.stringsA) → content st r ≠ content st p) ∧
      strintern st p = (⟨st.heap ++ [content st p],
        st.stringsA.insertIdx
          (str_lower_bound (regionCells st st.stringsA) (content st p)) st.heap.length,
        st.stringsB⟩, st.heap.length)) := by
  by_cases hB : ∃ j, j < st.stringsB.length ∧
      content st (st.stringsB.getD j 0) = content st p
  · obtain ⟨j0, hj0, hc⟩ := hB
    refine Or.inl ⟨st.stringsB.getD j0 0, Or.inl ?_, hc,
      strintern_found_B st p hwf j0 hj0 hc⟩
    rw [List.getD_eq_getElem _ _ hj0]; exact List.getElem_mem hj0
  · by_cases hA : ∃ j, j < st.stringsA.length ∧
        content st (st.stringsA.getD j 0) = content st p
    · obtain ⟨j0, hj0, hc⟩ := hA
      refine Or.inl ⟨st.stringsA.getD j0 0, Or.inr ?_, hc,
        strintern_found_A st p hwf j0 hj0 hc⟩
      rw [List.getD_eq_getElem _ _ hj0]; exact List.getElem_mem hj0
    · push_neg at hB hA
      refine Or.inr ⟨?_, strintern_not_found st p hB hA⟩
      intro r hr hc
      rcases hr with hr | hr
      · obtain ⟨i, hi, rfl⟩ := List.mem_iff_getElem.mp hr
        exact hB i hi (by rw [List.getD_eq_getElem _ _ hi]; exact hc)
      · obtain ⟨i, hi, rfl⟩ := List.mem_iff_getElem.mp hr
        exact hA i hi (by rw [List.getD_eq_getElem _ _ hi]; exact hc)

lemma content_extend (st : InternState) (s : String) (A' B' : List Nat) (q : Nat)
    (hq : q < st.heap.length) :
    content ⟨st.heap ++ [s], A', B'⟩ q = content st q := by
  show (st.heap ++ [s]).getD q "" = st.heap.getD q ""
  rw [List.getD_eq_getElem _ _ (by rw [List.length_append]; omega),
    List.getD_eq_getElem _ _ hq]
  exact List.getElem_append_left hq

lemma content_new (st : InternState) (s : String) (A' B' : List Nat) :
    content ⟨st.heap ++ [s], A', B'⟩ st.heap.length = s := by
  show (st.heap ++ [s]).getD st.heap.length "" = s
  rw [List.getD_eq_getElem?_getD, List.getElem?_append_right (le_refl _)]
  simp

/-- Well-formedness survives the young-region insertion of a fresh
copy. -/
lemma WF_insert (st : InternState) (p : Nat) (hwf : WFIntern st)
    (hp : p < st.heap.length)
    (habs : ∀ r, (r ∈ st.stringsB ∨ r ∈ st.stringsA) → content st r ≠ content st p) :
    WFIntern ⟨st.heap ++ [content st p],
      st.stringsA.insertIdx
        (str_lower_bound (regionCells st st.stringsA) (content st p)) st.heap.length,
      st.stringsB⟩ := by
  have hsortc := regionCells_sorted st _ hwf.sortedA
  have hlbA : str_lower_bound (regionCells st st.stringsA) (content st p)
      ≤ st.stringsA.length := by
    have := (str_lower_bound_spec (regionCells st st.stringsA) (content st p) hsortc).1
    rwa [regionCells_length] at this
  have habsc : ∀ j, j < (regionCells st st.stringsA).length →
      (regionCells st st.stringsA).getD j "" ≠ content st p := by
    intro j hj
    rw [regionCells_length] at hj
    rw [regionCells_getD st _ j hj]
    refine habs _ (Or.inr ?_)
    rw [List.getD_eq_getElem _ _ hj]; exact List.getElem_mem hj
  have hlo := (str_lower_bound_spec (regionCells st st.stringsA) (content st p) hsortc).2.1
  have hgt := str_not_found (regionCells st st.stringsA) (content st p) hsortc habsc
  have hmemA_lt : ∀ x ∈ st.stringsA, x < st.heap.length := hwf.validA
  refine ⟨?_, ?_, ?_, ?_, ?_⟩
  · intro x hx
    rcases (List.mem_insertIdx hlbA).mp hx with rfl | hx
    · rw [List.length_append]; simp
    · rw [List.length_append]
      have := hwf.validA x hx
      simp only [List.length_cons, List.length_nil]
      omega
  · intro x hx
    rw [List.length_append]
    have := hwf.validB x hx
    simp only [List.length_cons, List.length_nil]
    omega
  · rw [List.pairwise_iff_getElem]
    intro a b ha hb hab
    have hlen' : (st.stringsA.insertIdx
        (str_lower_bound (regionCells st st.stringsA) (content st p))
        st.heap.length).length = st.stringsA.length + 1 :=
      List.length_insertIdx _ _ hlbA
    rw [hlen'] at ha hb
    have hga := getD_insertIdx_cases st.stringsA st.heap.length
      (str_lower_bound (regionCells st st.stringsA) (content st p)) a 0 hlbA ha
    have hgb := getD_insertIdx_cases st.stringsA st.heap.length
      (str_lower_bound (regionCells st st.stringsA) (content st p)) b 0 hlbA hb
    rw [← List.getD_eq_getElem _ 0, ← List.getD_eq_getElem _ 0, hga, hgb]
    have holdc : ∀ j, j < st.stringsA.length →
        content ⟨st.heap ++ [content st p], st.stringsA.insertIdx
          (str_lower_bound (regionCells st st.stringsA) (content st p)) st.heap.length,
          st.stringsB⟩ (st.stringsA.getD j 0) = content st (st.stringsA.getD j 0) := by
      intro j hj
      refine content_extend st _ _ _ _ (hwf.validA _ ?_)
      rw [List.getD_eq_getElem _ _ hj]; exact List.getElem_mem hj
    have hnewc := content_new st (content st p)
      (st.stringsA.insertIdx
        (str_lower_bound (regionCells st st.stringsA) (content st p)) st.heap.length)
      st.stringsB
    have holds : ∀ i j, i < j → j < st.stringsA.length →
        content st (st.stringsA.getD i 0) < content st (st.stringsA.getD j 0) := by
      intro i j hij hj
      rw [List.getD_eq_getElem _ _ (lt_trans hij hj), List.getD_eq_getElem _ _ hj]
      exact List.pairwise_iff_getElem.mp hwf.sortedA i j _ _ hij
    have hlos : ∀ j, j < str_lower_bound (regionCells st st.stringsA) (content st p) →
        content st (st.stringsA.getD j 0) < content st p := by
      intro j hj
      have hjl : j < st.stringsA.length := by omega
      have := hlo j hj
      rwa [regionCells_getD st _ j hjl] at this
    have hgts : ∀ j, str_lower_bound (regionCells st st.stringsA) (content st p) ≤ j →
        j < st.stringsA.length → content st p < content st (st.stringsA.getD j 0) := by
      intro j h1 h2
      have := hgt j h1 (by rw [regionCells_length]; exact h2)
      rwa [regionCells_getD st _ j h2] at this
    rcases Nat.lt_trichotomy a (str_lower_bound (regionCells st st.stringsA) (content st p))
      with ha1 | ha1 | ha1
    · rw [if_pos ha1]
      rcases Nat.lt_trichotomy b (str_lower_bound (regionCells st st.stringsA) (content st p))
        with hb1 | hb1 | hb1
      · rw [if_pos hb1, holdc a (by omega), holdc b (by omega)]
        exact holds a b hab (by omega)
      · rw [if_neg (by omega), if_pos hb1, holdc a (by omega), hnewc]
        exact hlos a ha1
      · rw [if_neg (by omega), if_neg (by omega), holdc a (by omega), holdc (b - 1) (by omega)]
        exact holds a (b - 1) (by omega) (by omega)
    · rw [if_neg (by omega), if_pos ha1]
      rcases Nat.lt_trichotomy b (str_lower_bound (regionCells st st.stringsA) (content st p))
        with hb1 | hb1 | hb1
      · omega
      · omega
      · rw [if_neg (by omega), if_neg (by omega), hnewc, holdc (b - 1) (by omega)]
        exact hgts (b - 1) (by omega) (by omega)
    · rw [if_neg (by omega), if_neg (by omega)]
      rcases Nat.lt_trichotomy b (str_lower_bound (regionCells st st.stringsA) (content st p))
        with hb1 | hb1 | hb1
      · omega
      · omega
      · rw [if_neg (by omega), if_neg (by omega), holdc (a - 1) (by omega), holdc (b - 1) (by omega)]
        exact holds (a - 1) (b - 1) (by omega) (by omega)
  · refine List.Pairwise.imp_of_mem ?_ hwf.sortedB
    intro x y hx hy hxy
    rw [content_extend st _ _ _ _ (hwf.validB x hx),
      content_extend st _ _ _ _ (hwf.validB y hy)]
    exact hxy
  · intro x hx y hy
    rw [content_extend st _ _ _ _ (hwf.validB x hx)]
    rcases (List.mem_insertIdx hlbA).mp hy with rfl | hy
    · rw [content_new]
      exact habs x (Or.inl hx)
    · rw [content_extend st _ _ _ _ (hwf.validA y hy)]
      exact hwf.disj x hx y hy

/-- Everything `strintern` guarantees on a well-formed state: the result
state is well-formed, the heap only grows, old contents are preserved, the
old region is untouched, and the returned pointer is a stored pointer
carrying exactly the argued bytes. -/
lemma strintern_good (st : InternState) (p : Nat) (hwf : WFIntern st)
    (hp : p < st.heap.length) :
    WFIntern (strintern st p).1 ∧
    st.heap.length ≤ (strintern st p).1.heap.length ∧
    (∀ q, q < st.heap.length → content (strintern st p).1 q = content st q) ∧
    (strintern st p).2 < (strintern st p).1.heap.length ∧
    ((strintern st p).2 ∈ (strintern st p).1.stringsB ∨
      (strintern st p).2 ∈ (strintern st p).1.stringsA) ∧
    content (strintern st p).1 (strintern st p).2 = content st p ∧
    (strintern st p).1.stringsB = st.stringsB := by
  rcases strintern_cases st p hwf with ⟨r, hr, hc, heq⟩ | ⟨habs, heq⟩
  · rw [heq]
    refine ⟨hwf, le_refl _, fun q _ => rfl, ?_, hr, hc, rfl⟩
    rcases hr with hr | hr
    · exact hwf.validB r hr
    · exact hwf.validA r hr
  · rw [heq]
    dsimp only
    have hlbA : str_lower_bound (regionCells st st.stringsA) (content st p)
        ≤ st.stringsA.length := by
      have := (str_lower_bound_spec (regionCells st st.stringsA) (content st p)
        (regionCells_sorted st _ hwf.sortedA)).1
      rwa [regionCells_length] at this
    refine ⟨WF_insert st p hwf hp habs, ?_, ?_, ?_, ?_, ?_, rfl⟩
    · rw [List.length_append]; simp
    · intro q hq; exact content_extend st _ _ _ q hq
    · rw [List.length_append]; simp
    · exact Or.inr ((List.mem_insertIdx hlbA).mpr (Or.inl rfl))
    · exact content_new st _ _ _

/-- A pointer whose bytes are already stored resolves to the stored
pointer without changing the state. -/
lemma strintern_resolves (st : InternState) (q r : Nat) (hwf : WFIntern st)
    (hr : r ∈ st.stringsB ∨ r ∈ st.stringsA) (hcr : content st r = content st q) :
    strintern st q = (st, r) := by
  rcases hr with hr | hr
  · obtain ⟨i, hi, rfl⟩ := List.mem_iff_getElem.mp hr
    have h := strintern_found_B st q hwf i hi
      (by rw [List.getD_eq_getElem _ _ hi]; exact hcr)
    rwa [List.getD_eq_getElem _ _ hi] at h
  · obtain ⟨i, hi, rfl⟩ := List.mem_iff_getElem.mp hr
    have h := strintern_found_A st q hwf i hi
      (by rw [List.getD_eq_getElem _ _ hi]; exact hcr)
    rwa [List.getD_eq_getElem _ _ hi] at h

/-- Claim C5: interning is idempotent and reflects byte equality.  On a
well-formed interner state: interning an already-interned pointer returns
the same pointer with the state unchanged; after interning `p`, interning
any valid `q` yields the identical pointer iff the bytes of `q` and `p`
are equal; the old region is searched first and never modified; and a copy
is appended (to the heap, pointer into the young region) only when both
regions miss the bytes. -/
theorem string_interning (st : InternState) (p q : Nat) (hwf : WFIntern st)
    (hp : p < st.heap.length) (hq : q < st.heap.length) :
    strintern (strintern st p).1 (strintern st p).2
      = ((strintern st p).1, (strintern st p).2) ∧
    content (strintern st p).1 (strintern st p).2 = content st p ∧
    ((strintern (strintern st p).1 q).2 = (strintern st p).2 ↔
      content st q = content st p) ∧
    (strintern st p).1.stringsB = st.stringsB ∧
    ((strintern st p).1.heap = st.heap ∨
      ((strintern st p).1.heap = st.heap ++ [content st p] ∧
        ∀ r, (r ∈ st.stringsB ∨ r ∈ st.stringsA) → content st r ≠ content st p)) := by
  obtain ⟨hwf1, hle1, hpres1, hval1, hmem1, hcont1, hB1⟩ := strintern_good st p hwf hp
  have hq1 : q < (strintern st p).1.heap.length := lt_of_lt_of_le hq hle1
  obtain ⟨hwf2, hle2, hpres2, hval2, hmem2, hcont2, hB2⟩ :=
    strintern_good (strintern st p).1 q hwf1 hq1
  refine ⟨?_, hcont1, ⟨?_, ?_⟩, hB1, ?_⟩
  · exact strintern_resolves (strintern st p).1 (strintern st p).2 (strintern st p).2
      hwf1 hmem1 rfl
  · intro h
    calc content st q
        = content (strintern st p).1 q := (hpres1 q hq).symm
      _ = content (strintern (strintern st p).1 q).1
            (strintern (strintern st p).1 q).2 := hcont2.symm
      _ = content (strintern (strintern st p).1 q).1 (strintern st p).2 := by rw [h]
      _ = content (strintern st p).1 (strintern st p).2 := hpres2 _ hval1
      _ = content st p := hcont1
  · intro h
    have hcc : content (strintern st p).1 (strintern st p).2
        = content (strintern st p).1 q := by
      rw [hcont1, hpres1 q hq, h]
    rw [strintern_resolves (strintern st p).1 q (strintern st p).2 hwf1 hmem1 hcc]
  · rcases strintern_cases st p hwf with ⟨r, hr, hc, heq⟩ | ⟨habs, heq⟩
    · rw [heq]; exact Or.inl rfl
    · rw [heq]; exact Or.inr ⟨rfl, habs⟩

/-- Closed witness for the interning theorem on a concrete state with one
old string "b" (pointer 0) and one young string "a" (pointer 1):
re-interning the result of interning pointer 0 is a fixed point, and
interning pointer 1 afterwards yields a different pointer since the bytes
differ. -/
theorem string_interning_witness :
    strintern (strintern ⟨["b", "a"], [1], [0]⟩ 0).1
        (strintern ⟨["b", "a"], [1], [0]⟩ 0).2
      = ((strintern ⟨["b", "a"], [1], [0]⟩ 0).1,
         (strintern ⟨["b", "a"], [1], [0]⟩ 0).2) ∧
    (strintern (strintern ⟨["b", "a"], [1], [0]⟩ 0).1 1).2
      ≠ (strintern ⟨["b", "a"], [1], [0]⟩ 0).2 := by
  have hwf : WFIntern ⟨["b", "a"], [1], [0]⟩ :=
    ⟨by decide, by decide, List.pairwise_singleton _ _,
     List.pairwise_singleton _ _, by decide⟩
  obtain ⟨h1, _, h3, _, _⟩ :=
    string_interning ⟨["b", "a"], [1], [0]⟩ 0 1 hwf (by decide) (by decide)
  exact ⟨h1, fun hne => absurd (h3.mp hne) (by decide)⟩

end Rela
